import Mathlib

/-!
Verification of the qp-compare plan-comparison engine.

The data model (paths, selections, plan nodes, fetch nodes) is embedded from
the Rust sources under src/src/router/.  The matcher, normalizer and adapter
(plan_compare.rs, convert.rs) are not part of the provided sources; the
definitions for them are modelled from the specification and are marked
"Modelled from the spec:" in their doc comments.

Strings are modelled by Lean's String (a list of characters); character-level
parsing work is done on List Char via String.data.
-/

namespace QpCompare

/-! ## Generic utilities -/

/-- Lexicographic order on lists of naturals, as a Bool-valued function. -/
def lexLe : List Nat → List Nat → Bool
  | [], _ => true
  | _ :: _, [] => false
  | a :: as, b :: bs => if a < b then true else if a = b then lexLe as bs else false

/-- Split a character list at commas, keeping empty segments (Rust's split(',')). -/
def splitOnComma : List Char → List (List Char)
  | [] => [[]]
  | c :: cs =>
    if c = ',' then [] :: splitOnComma cs
    else
      match splitOnComma cs with
      | [] => [[c]]
      | s :: ss => (c :: s) :: ss

/-- Join character lists with comma separators (Rust's join(",")). -/
def joinComma : List (List Char) → List Char
  | [] => []
  | [x] => x
  | x :: xs => x ++ ',' :: joinComma xs

/-- The decimal digit character for a value below ten. -/
def digitChar : Nat → Char
  | 0 => '0' | 1 => '1' | 2 => '2' | 3 => '3' | 4 => '4'
  | 5 => '5' | 6 => '6' | 7 => '7' | 8 => '8' | _ => '9'

/-- Fuel-driven decimal rendering of a natural number (most significant first). -/
def decDigits : Nat → Nat → List Char
  | 0, _ => []
  | fuel + 1, n =>
    if n < 10 then [digitChar n]
    else decDigits fuel (n / 10) ++ [digitChar (n % 10)]

/-- Decimal rendering of a natural number, as written by Rust's Display for usize. -/
def natToDecimal (n : Nat) : List Char := decDigits (n + 1) n

/-- ASCII decimal digit test, by code point. -/
def isDigitChar (c : Char) : Bool := 48 ≤ c.toNat && c.toNat ≤ 57

/-- A nonempty all-digit character list (the shape of a serialized Index element). -/
def digitsOnly (s : List Char) : Bool := !s.isEmpty && s.all isDigitChar

/-- Read back a decimal digit list as a natural number. -/
def parseNatChars (s : List Char) : Nat :=
  s.foldl (fun acc c => acc * 10 + (c.toNat - 48)) 0

/-! ## Injective encodings into List Nat

These give every embedded data type a total, injective key, used for the
canonical sorting of order-insensitive constructs and for decidable equality
of the nested inductive types. -/

/-- Self-delimiting encoding of a string: length then code points. -/
def encStr (s : String) : List Nat :=
  s.data.length :: s.data.map Char.toNat

/-- Self-delimiting encoding of an option, given one for the element. -/
def encOpt (f : α → List Nat) : Option α → List Nat
  | none => [0]
  | some a => 1 :: f a

/-- Self-delimiting encoding of a list, given one for the elements. -/
def encListC (f : α → List Nat) (xs : List α) : List Nat :=
  xs.length :: (xs.map f).flatten

/-- An encoding is prefix-injective: it can be unambiguously peeled off the
front of any longer code.  This is the composable form of injectivity. -/
def PrefixInj (f : α → List Nat) : Prop :=
  ∀ a b r₁ r₂, f a ++ r₁ = f b ++ r₂ → a = b ∧ r₁ = r₂

theorem PrefixInj.injective {f : α → List Nat} (h : PrefixInj f) :
    Function.Injective f := by
  intro a b hab
  have := h a b [] [] (by simp [hab])
  exact this.1

theorem char_toNat_injective : Function.Injective Char.toNat := by
  intro a b hab
  have ha := Char.ofNat_toNat a
  rw [hab, Char.ofNat_toNat] at ha
  exact ha.symm

theorem prefixInj_encStr : PrefixInj encStr := by
  intro a b r₁ r₂ h
  unfold encStr at h
  simp only [List.cons_append, List.cons.injEq] at h
  obtain ⟨hlen, happ⟩ := h
  have h2 := List.append_inj happ (by simp [hlen])
  obtain ⟨hmap, hr⟩ := h2
  refine ⟨String.ext ?_, hr⟩
  exact List.map_injective_iff.mpr char_toNat_injective hmap

theorem prefixInj_encOpt {f : α → List Nat} (hf : PrefixInj f) :
    PrefixInj (encOpt f) := by
  intro a b r₁ r₂ h
  cases a <;> cases b <;> simp only [encOpt, List.cons_append, List.cons.injEq,
    List.nil_append] at h
  · exact ⟨rfl, h.2⟩
  · omega
  · omega
  · obtain ⟨-, h⟩ := h
    obtain ⟨he, hr⟩ := hf _ _ _ _ h
    exact ⟨by rw [he], hr⟩

theorem encListC_body_peel {f : α → List Nat} (hf : PrefixInj f) :
    ∀ (xs ys : List α) (r₁ r₂ : List Nat), xs.length = ys.length →
      (xs.map f).flatten ++ r₁ = (ys.map f).flatten ++ r₂ → xs = ys ∧ r₁ = r₂ := by
  intro xs
  induction xs with
  | nil =>
    intro ys r₁ r₂ hlen h
    cases ys with
    | nil => simpa using h
    | cons y ys => simp at hlen
  | cons x xs ih =>
    intro ys r₁ r₂ hlen h
    cases ys with
    | nil => simp at hlen
    | cons y ys =>
      simp only [List.map_cons, List.flatten_cons, List.append_assoc] at h
      obtain ⟨hxy, h⟩ := hf _ _ _ _ h
      obtain ⟨hxs, hr⟩ := ih ys r₁ r₂ (by simpa using hlen) h
      exact ⟨by rw [hxy, hxs], hr⟩

theorem prefixInj_encListC {f : α → List Nat} (hf : PrefixInj f) :
    PrefixInj (encListC f) := by
  intro xs ys r₁ r₂ h
  unfold encListC at h
  simp only [List.cons_append, List.cons.injEq] at h
  exact encListC_body_peel hf xs ys r₁ r₂ h.1 h.2

/-! ## Lexicographic order lemmas -/

theorem lexLe_total : ∀ a b : List Nat, lexLe a b = true ∨ lexLe b a = true := by
  intro a
  induction a with
  | nil => intro b; left; rfl
  | cons x xs ih =>
    intro b
    cases b with
    | nil => right; rfl
    | cons y ys =>
      simp only [lexLe]
      rcases Nat.lt_trichotomy x y with h | h | h
      · left; simp [h]
      · subst h
        rcases ih ys with h2 | h2 <;> simp [h2, Nat.lt_irrefl]
      · right; simp [h]

theorem lexLe_trans : ∀ a b c : List Nat,
    lexLe a b = true → lexLe b c = true → lexLe a c = true := by
  intro a
  induction a with
  | nil => intro b c _ _; rfl
  | cons x xs ih =>
    intro b c hab hbc
    cases b with
    | nil => simp [lexLe] at hab
    | cons y ys =>
      cases c with
      | nil => simp [lexLe] at hbc
      | cons z zs =>
        simp only [lexLe] at hab hbc ⊢
        split_ifs at hab hbc ⊢ with h₁ h₂ h₃ h₄ h₅ h₆ h₇ <;>
          first
          | rfl
          | omega
          | (exact ih ys zs (by omega) (by assumption))
          | (exact ih ys zs hab hbc)
          | (subst_vars; omega)
          | (subst_vars; exact ih ys zs hab hbc)

theorem lexLe_antisymm : ∀ a b : List Nat,
    lexLe a b = true → lexLe b a = true → a = b := by
  intro a
  induction a with
  | nil =>
    intro b _ hba
    cases b with
    | nil => rfl
    | cons y ys => simp [lexLe] at hba
  | cons x xs ih =>
    intro b hab hba
    cases b with
    | nil => simp [lexLe] at hab
    | cons y ys =>
      simp only [lexLe] at hab hba
      split_ifs at hab hba with h₁ h₂ h₃ h₄
      all_goals try omega
      subst_vars
      rw [ih ys hab hba]

/-! ## Canonical string ordering and sorted de-duplication -/

/-- Sort key of a string: its character code points. -/
def strKey (s : String) : List Nat := s.data.map Char.toNat

/-- Total order on strings by code points, as a relation for sorting. -/
def strLeRel (a b : String) : Prop := lexLe (strKey a) (strKey b) = true

instance : DecidableRel strLeRel := fun _ _ => instDecidableEqBool _ _

instance : IsTotal String strLeRel := ⟨fun a b => lexLe_total (strKey a) (strKey b)⟩

instance : IsTrans String strLeRel :=
  ⟨fun a b c => lexLe_trans (strKey a) (strKey b) (strKey c)⟩

theorem strKey_injective : Function.Injective strKey := by
  intro a b hab
  exact String.ext (List.map_injective_iff.mpr char_toNat_injective hab)

instance : IsAntisymm String strLeRel :=
  ⟨fun a b h₁ h₂ => strKey_injective (lexLe_antisymm _ _ h₁ h₂)⟩

/-- Modelled from the spec: variable_usages are "reduced to a sorted,
de-duplicated set" by the normalizer (plan_compare.rs is not in the provided
sources). -/
def sortedDedup (v : List String) : List String :=
  List.insertionSort strLeRel v.dedup

/-- Two lists with the same members have the same sorted de-duplication. -/
theorem sortedDedup_eq_of_mem_iff {v₁ v₂ : List String}
    (h : ∀ s, s ∈ v₁ ↔ s ∈ v₂) : sortedDedup v₁ = sortedDedup v₂ := by
  have hd : v₁.dedup.Perm v₂.dedup := by
    rw [List.perm_ext_iff_of_nodup (List.nodup_dedup v₁) (List.nodup_dedup v₂)]
    intro a
    simp only [List.mem_dedup]
    exact h a
  have hperm : (List.insertionSort strLeRel v₁.dedup).Perm
      (List.insertionSort strLeRel v₂.dedup) :=
    ((List.perm_insertionSort strLeRel v₁.dedup).trans hd).trans
      (List.perm_insertionSort strLeRel v₂.dedup).symm
  exact List.eq_of_perm_of_sorted hperm
    (List.sorted_insertionSort strLeRel v₁.dedup)
    (List.sorted_insertionSort strLeRel v₂.dedup)

/-- Sort a list of strings canonically (multisets kept, duplicates kept). -/
def sortStrings (v : List String) : List String :=
  List.insertionSort strLeRel v

theorem sortStrings_eq_of_perm {v₁ v₂ : List String} (h : v₁.Perm v₂) :
    sortStrings v₁ = sortStrings v₂ := by
  have hperm : (List.insertionSort strLeRel v₁).Perm (List.insertionSort strLeRel v₂) :=
    ((List.perm_insertionSort strLeRel v₁).trans h).trans
      (List.perm_insertionSort strLeRel v₂).symm
  exact List.eq_of_perm_of_sorted hperm
    (List.sorted_insertionSort strLeRel v₁)
    (List.sorted_insertionSort strLeRel v₂)

/-! ## Path model (src/src/router/path.rs)

A GraphQL path element: Flatten, Index, Fragment or Key, where Key and
Flatten optionally carry type conditions.  Serialization of an element is a
plain string (Index serializes as a JSON number); a whole Path displays as
"/"-separated elements. -/

/-- Type conditions restricting the applicability of a path element. -/
abbrev TypeConditions := List String

/-- A GraphQL path element (src/src/router/path.rs, enum PathElement). -/
inductive PathElement where
  /-- A path element that given an array will flatmap the content. -/
  | Flatten (type_conditions : Option TypeConditions)
  /-- An index path element. -/
  | Index (index : Nat)
  /-- A fragment application. -/
  | Fragment (name : String)
  /-- A key path element. -/
  | Key (key : String) (type_conditions : Option TypeConditions)
  deriving DecidableEq

/-- A path into the result document (src/src/router/path.rs, struct Path). -/
abbrev Path := List PathElement

/-- The literal "... on " marker that precedes a fragment element
(the FRAGMENT constant in path.rs). -/
def fragmentMarker : List Char := ['.', '.', '.', ' ', 'o', 'n', ' ']

/-! ### The type-conditions regex

path.rs matches the lazy regex  \|\[(?<condition>.+?)?\]  against an element
string, taking the leftmost match; the matched part is removed and the
condition group (comma-split, defaulting to the empty list when the group is
absent) becomes the type conditions.  The functions below implement exactly
that match: at a "|[" occurrence the engine first tries the participating
group with lazily-growing nonempty content (a dot never matches a newline),
then falls back to an absent group requiring an immediate "]". -/

/-- Scan for the closing bracket of a participating, lazily matched
condition group; acc holds the (reversed) content consumed so far. -/
def scanContent (acc : List Char) : List Char → Option (List Char × List Char)
  | [] => none
  | c :: cs =>
    if acc ≠ [] ∧ c = ']' then some (acc, cs)
    else if c = '\n' then none
    else scanContent (acc ++ [c]) cs
termination_by structural cs => cs

/-- Attempt the regex match at a position directly after "|[". -/
def matchTypeConditionsAt (rest : List Char) : Option (TypeConditions × List Char) :=
  match scanContent [] rest with
  | some (content, suffix) =>
    some ((splitOnComma content).map (fun l => String.mk l), suffix)
  | none =>
    match rest with
    | ']' :: suffix => some ([], suffix)
    | _ => none

/-- Find the leftmost match of the type-conditions regex; returns the text
before the match, the extracted conditions, and the text after the match. -/
def findTypeConditions : List Char → Option (List Char × TypeConditions × List Char)
  | [] => none
  | c :: cs =>
    if c = '|' then
      match cs with
      | '[' :: rest =>
        match matchTypeConditionsAt rest with
        | some (tc, suffix) => some ([], tc, suffix)
        | none => (findTypeConditions cs).map (fun x => (c :: x.1, x.2.1, x.2.2))
      | _ => (findTypeConditions cs).map (fun x => (c :: x.1, x.2.1, x.2.2))
    else (findTypeConditions cs).map (fun x => (c :: x.1, x.2.1, x.2.2))
termination_by structural s => s

/-- split_path_element_and_type_conditions from path.rs: remove the first
regex match from the string and return the extracted conditions. -/
def split_path_element_and_type_conditions (s : List Char) :
    List Char × Option TypeConditions :=
  match findTypeConditions s with
  | none => (s, none)
  | some (pre, tc, suf) => (pre ++ suf, some tc)

/-! ### Display for Path (impl fmt::Display in path.rs) -/

/-- The "|[A,B]" suffix written after a Key or Flatten element; written only
when the conditions are present and nonempty (the !c.is_empty() check). -/
def fmtTypeConditions : Option TypeConditions → List Char
  | none => []
  | some c =>
    if c.isEmpty then []
    else '|' :: '[' :: (joinComma (c.map String.data) ++ [']'])

/-- One element of the canonical path rendering, without its "/" lead-in. -/
def fmtPathElement : PathElement → List Char
  | .Index index => natToDecimal index
  | .Key key type_conditions => key.data ++ fmtTypeConditions type_conditions
  | .Flatten type_conditions => '@' :: fmtTypeConditions type_conditions
  | .Fragment name => fragmentMarker ++ name.data

/-- Character-level rendering of a Path: "/" before every element. -/
def formatPathChars : Path → List Char
  | [] => []
  | e :: es => '/' :: (fmtPathElement e ++ formatPathChars es)

/-- Path::fmt from path.rs: the canonical string encoding of a path. -/
def Path.fmt (p : Path) : String := String.mk (formatPathChars p)

/-! ### Parsing (visitors from path.rs plus the spec's string-level contract)

The serde visitors in path.rs deserialize one element from one string, with
the untagged variant order Flatten, Index, Fragment, Key; a string never
deserializes as Index (indices travel as JSON numbers), and KeyVisitor
accepts any string.  The string-level parse of a whole "/"-separated path is
not part of the provided sources and is modelled from the spec. -/

/-- FlattenVisitor::visit_str from path.rs: accepts a string whose
condition-stripped form is exactly "@", returning the conditions. -/
def flattenVisit (s : List Char) : Option (Option TypeConditions) :=
  let (path_element, type_conditions) := split_path_element_and_type_conditions s
  if path_element = ['@'] then some type_conditions else none

/-- FragmentVisitor::visit_str from path.rs: accepts a string beginning with
"... on ", returning what follows the marker. -/
def fragmentVisit (s : List Char) : Option String :=
  if s.take 7 = fragmentMarker then some (String.mk (s.drop 7)) else none

/-- KeyVisitor::visit_str from path.rs: accepts any string. -/
def keyVisit (s : List Char) : String × Option TypeConditions :=
  let (path_element, type_conditions) := split_path_element_and_type_conditions s
  (String.mk path_element, type_conditions)

/-- Modelled from the spec: parse one "/"-separated segment of a canonical
path string.  A nonempty all-digit segment is an index (an Index serializes
as a JSON number, rendered in decimal by the canonical encoding); any other
segment goes through the untagged variant order of path.rs — FlattenVisitor,
then FragmentVisitor, with KeyVisitor accepting whatever both reject. -/
def parseElement (s : List Char) : PathElement :=
  if digitsOnly s then .Index (parseNatChars s)
  else
    match flattenVisit s with
    | some tc => .Flatten tc
    | none =>
      match fragmentVisit s with
      | some name => .Fragment name
      | none =>
        let (key, tc) := keyVisit s
        .Key key tc

/-- Split a character list at every '/', keeping empty segments. -/
def segsSplit : List Char → List (List Char)
  | [] => [[]]
  | c :: cs =>
    if c = '/' then [] :: segsSplit cs
    else
      match segsSplit cs with
      | [] => [[c]]
      | s :: ss => (c :: s) :: ss

/-- Modelled from the spec: parse a canonical path string ("/"-delimited
elements; the empty string denotes the document root). -/
def parsePathChars : List Char → Option Path
  | [] => some []
  | '/' :: cs => some ((segsSplit cs).map parseElement)
  | _ => none

/-- Modelled from the spec: parse(string) → Path on Lean strings. -/
def Path.parse (s : String) : Option Path := parsePathChars s.data

/-! ### Validity of paths

A path is valid when its keys, fragment type names and condition names are
GraphQL names and no element carries an empty (as opposed to absent) set of
type conditions; the round-trip theorem is stated for valid paths. -/

/-- First character of a GraphQL name: ASCII letter or underscore. -/
def isNameHead (c : Char) : Bool :=
  (65 ≤ c.toNat && c.toNat ≤ 90) || (97 ≤ c.toNat && c.toNat ≤ 122) || (c.toNat = 95)

/-- Subsequent character of a GraphQL name: letter, digit or underscore. -/
def isNameChar (c : Char) : Bool := isNameHead c || isDigitChar c

/-- A GraphQL name: [_A-Za-z][_0-9A-Za-z]*. -/
def isGraphQLName (s : String) : Bool :=
  match s.data with
  | [] => false
  | c :: cs => isNameHead c && cs.all isNameChar

/-- Valid type conditions: absent, or a nonempty list of GraphQL names. -/
def validConditions : Option TypeConditions → Bool
  | none => true
  | some c => !c.isEmpty && c.all isGraphQLName

/-- Valid path element (names well-formed, no empty condition set). -/
def validElement : PathElement → Bool
  | .Index _ => true
  | .Key key tc => isGraphQLName key && validConditions tc
  | .Flatten tc => validConditions tc
  | .Fragment name => isGraphQLName name

/-- Valid path: every element valid. -/
def validPath (p : Path) : Bool := p.all validElement

/-! ### Decimal rendering lemmas -/

theorem digitChar_toNat {n : Nat} (h : n < 10) : (digitChar n).toNat = 48 + n := by
  interval_cases n <;> decide

theorem digitChar_isDigit {n : Nat} (h : n < 10) : isDigitChar (digitChar n) = true := by
  interval_cases n <;> decide

theorem decDigits_spec : ∀ fuel n, n < fuel →
    parseNatChars (decDigits fuel n) = n ∧ decDigits fuel n ≠ [] ∧
      (decDigits fuel n).all isDigitChar = true := by
  intro fuel
  induction fuel with
  | zero => intro n h; omega
  | succ fuel ih =>
    intro n h
    by_cases h10 : n < 10
    · refine ⟨?_, by simp [decDigits, h10], ?_⟩
      · simp [decDigits, h10, parseNatChars, digitChar_toNat h10]
      · simp [decDigits, h10, digitChar_isDigit h10]
    · have hdiv : n / 10 < fuel := by omega
      obtain ⟨hparse, hne, hall⟩ := ih (n / 10) hdiv
      have hmod : n % 10 < 10 := Nat.mod_lt _ (by omega)
      refine ⟨?_, by simp [decDigits, h10], ?_⟩
      · simp only [decDigits, h10, if_false, parseNatChars, List.foldl_append]
        rw [parseNatChars] at hparse
        simp [hparse, digitChar_toNat hmod]
        omega
      · simp only [decDigits, h10, if_false, List.all_append, hall,
          List.all_cons, List.all_nil, digitChar_isDigit hmod]
        rfl

theorem digitsOnly_natToDecimal (n : Nat) : digitsOnly (natToDecimal n) = true := by
  obtain ⟨-, hne, hall⟩ := decDigits_spec (n + 1) n (by omega)
  simp [digitsOnly, natToDecimal, hall]
  exact fun h => hne (List.isEmpty_iff.mp (by simpa [natToDecimal] using h))

theorem parseNatChars_natToDecimal (n : Nat) : parseNatChars (natToDecimal n) = n :=
  (decDigits_spec (n + 1) n (by omega)).1

/-! ### Character facts -/

theorem nameChar_ne {c d : Char} (hc : isNameChar c = true)
    (hd : isNameChar d = false) : c ≠ d := by
  intro h
  subst h
  simp [hc] at hd

theorem digitChar_ne {c d : Char} (hc : isDigitChar c = true)
    (hd : isDigitChar d = false) : c ≠ d := by
  intro h
  subst h
  simp [hc] at hd

theorem nameHead_not_digit {c : Char} (h : isNameHead c = true) :
    isDigitChar c = false := by
  simp only [isNameHead, Bool.or_eq_true, Bool.and_eq_true, decide_eq_true_eq] at h
  simp only [isDigitChar, Bool.and_eq_true, decide_eq_true_eq,
    Bool.and_eq_false_iff, decide_eq_false_iff_not]
  omega

theorem nameHead_isNameChar {c : Char} (h : isNameHead c = true) :
    isNameChar c = true := by
  simp [isNameChar, h]

theorem nameHead_ne {c d : Char} (hc : isNameHead c = true)
    (hd : isNameHead d = false) : c ≠ d := by
  intro h
  subst h
  simp [hc] at hd

/-! ### Lemmas about the regex model -/

theorem findTypeConditions_none {s : List Char} (h : ∀ c ∈ s, c ≠ '|') :
    findTypeConditions s = none := by
  induction s with
  | nil => rfl
  | cons c cs ih =>
    have hc : c ≠ '|' := h c (List.mem_cons_self c cs)
    have hr : findTypeConditions cs = none := ih (fun x hx => h x (List.mem_cons_of_mem c hx))
    simp [findTypeConditions, hc, hr]

theorem findTypeConditions_prepend {pre rest : List Char} (h : ∀ c ∈ pre, c ≠ '|') :
    findTypeConditions (pre ++ rest) =
      (findTypeConditions rest).map (fun x => (pre ++ x.1, x.2.1, x.2.2)) := by
  induction pre with
  | nil =>
    simp only [List.nil_append]
    cases findTypeConditions rest with
    | none => rfl
    | some x => rfl
  | cons c pre ih =>
    have hc : c ≠ '|' := h c (List.mem_cons_self c pre)
    have hr := ih (fun x hx => h x (List.mem_cons_of_mem c hx))
    simp only [List.cons_append, findTypeConditions, hc, if_false, List.append_eq]
    rw [hr]
    cases findTypeConditions rest with
    | none => rfl
    | some x => rfl

theorem scanContent_spec : ∀ (body : List Char) (acc suf : List Char),
    acc ++ body ≠ [] → (∀ c ∈ body, c ≠ ']' ∧ c ≠ '\n') →
    scanContent acc (body ++ ']' :: suf) = some (acc ++ body, suf) := by
  intro body
  induction body with
  | nil =>
    intro acc suf hne _
    simp only [List.nil_append, List.append_nil] at *
    simp [scanContent, hne]
  | cons c body ih =>
    intro acc suf _ hchars
    have hc : c ≠ ']' ∧ c ≠ '\n' := hchars c (List.mem_cons_self c body)
    have := ih (acc ++ [c]) suf (by simp)
      (fun x hx => hchars x (List.mem_cons_of_mem c hx))
    simp only [List.cons_append, scanContent, hc.1, hc.2, if_false, and_false]
    simpa [List.append_assoc] using this

/-! ### Comma splitting lemmas -/

theorem splitOnComma_no_comma {s : List Char} (h : ∀ c ∈ s, c ≠ ',') :
    splitOnComma s = [s] := by
  induction s with
  | nil => rfl
  | cons c cs ih =>
    have hc : c ≠ ',' := h c (List.mem_cons_self c cs)
    have hr := ih (fun x hx => h x (List.mem_cons_of_mem c hx))
    simp [splitOnComma, hc, hr]

theorem splitOnComma_append {x t : List Char} (h : ∀ c ∈ x, c ≠ ',') :
    splitOnComma (x ++ ',' :: t) = x :: splitOnComma t := by
  induction x with
  | nil => simp [splitOnComma]
  | cons c x ih =>
    have hc : c ≠ ',' := h c (List.mem_cons_self c x)
    have hr := ih (fun y hy => h y (List.mem_cons_of_mem c hy))
    simp [splitOnComma, hc, hr]

theorem splitOnComma_joinComma : ∀ (parts : List (List Char)), parts ≠ [] →
    (∀ part ∈ parts, ∀ ch ∈ part, ch ≠ ',') →
    splitOnComma (joinComma parts) = parts := by
  intro parts
  induction parts with
  | nil => intro h; exact absurd rfl h
  | cons x xs ih =>
    intro _ hch
    cases xs with
    | nil =>
      simp only [joinComma]
      exact congrArg (· ) (splitOnComma_no_comma (hch x (List.mem_cons_self x [])))
    | cons y ys =>
      have hx : ∀ ch ∈ x, ch ≠ ',' := hch x (List.mem_cons_self x _)
      have hr := ih (by simp) (fun p hp => hch p (List.mem_cons_of_mem x hp))
      show splitOnComma (x ++ ',' :: joinComma (y :: ys)) = x :: y :: ys
      rw [splitOnComma_append hx, hr]

theorem joinComma_chars : ∀ (parts : List (List Char)) (ch : Char),
    ch ∈ joinComma parts → ch = ',' ∨ ∃ part ∈ parts, ch ∈ part := by
  intro parts
  induction parts with
  | nil => intro ch h; cases h
  | cons x xs ih =>
    intro ch h
    cases xs with
    | nil =>
      right
      exact ⟨x, List.mem_cons_self x [], h⟩
    | cons y ys =>
      simp only [joinComma, List.mem_append, List.mem_cons] at h
      rcases h with h | h | h
      · right; exact ⟨x, List.mem_cons_self x _, h⟩
      · left; exact h
      · rcases ih ch h with h2 | ⟨p, hp, hcp⟩
        · left; exact h2
        · right; exact ⟨p, List.mem_cons_of_mem x hp, hcp⟩

/-! ### The main split lemma and the element round-trip -/

theorem name_chars {s : String} (h : isGraphQLName s = true) :
    s.data ≠ [] ∧ ∀ c ∈ s.data, isNameChar c = true := by
  unfold isGraphQLName at h
  cases hs : s.data with
  | nil => rw [hs] at h; cases h
  | cons c cs =>
    rw [hs] at h
    simp only [Bool.and_eq_true, List.all_eq_true] at h
    refine ⟨by simp, ?_⟩
    intro x hx
    rcases List.mem_cons.mp hx with rfl | hx2
    · exact nameHead_isNameChar h.1
    · exact h.2 x hx2

theorem fmtTypeConditions_chars {tc : Option TypeConditions} {ch : Char}
    (hv : validConditions tc = true) (h : ch ∈ fmtTypeConditions tc) :
    ch = '|' ∨ ch = '[' ∨ ch = ']' ∨ ch = ',' ∨ isNameChar ch = true := by
  cases tc with
  | none => cases h
  | some c =>
    simp only [validConditions, Bool.and_eq_true, List.all_eq_true] at hv
    simp only [fmtTypeConditions] at h
    rw [if_neg (by simpa using hv.1)] at h
    rcases List.mem_cons.mp h with rfl | h2
    · left; rfl
    rcases List.mem_cons.mp h2 with rfl | h3
    · right; left; rfl
    rcases List.mem_append.mp h3 with h4 | h4
    · rcases joinComma_chars _ _ h4 with rfl | ⟨part, hp, hcp⟩
      · right; right; right; left; rfl
      · obtain ⟨nm, hnm, rfl⟩ := List.mem_map.mp hp
        right; right; right; right
        exact (name_chars (hv.2 nm hnm)).2 ch hcp
    · rcases List.mem_cons.mp h4 with rfl | h5
      · right; right; left; rfl
      · cases h5

/-- Splitting a formatted element recovers its prefix and conditions exactly,
for any prefix free of the '|' marker character. -/
theorem split_fmt {pre : List Char} {tc : Option TypeConditions}
    (hpre : ∀ c ∈ pre, c ≠ '|') (hv : validConditions tc = true) :
    split_path_element_and_type_conditions (pre ++ fmtTypeConditions tc) = (pre, tc) := by
  cases tc with
  | none =>
    simp only [fmtTypeConditions, List.append_nil]
    unfold split_path_element_and_type_conditions
    rw [findTypeConditions_none hpre]
  | some c =>
    simp only [validConditions, Bool.and_eq_true, List.all_eq_true] at hv
    have hcne : c ≠ [] := by simpa using hv.1
    simp only [fmtTypeConditions]
    rw [if_neg (by simp [hcne])]
    unfold split_path_element_and_type_conditions
    rw [findTypeConditions_prepend hpre]
    have hbody : ∀ ch ∈ joinComma (c.map String.data), ch ≠ ']' ∧ ch ≠ '\n' := by
      intro ch hch
      rcases joinComma_chars _ _ hch with rfl | ⟨part, hp, hcp⟩
      · exact ⟨by decide, by decide⟩
      · obtain ⟨nm, hnm, rfl⟩ := List.mem_map.mp hp
        have := (name_chars (hv.2 nm hnm)).2 ch hcp
        exact ⟨nameChar_ne this (by decide), nameChar_ne this (by decide)⟩
    have hbody_ne : joinComma (c.map String.data) ≠ [] := by
      cases c with
      | nil => exact absurd rfl hcne
      | cons nm rest =>
        cases rest with
        | nil =>
          simp only [List.map_cons, List.map_nil, joinComma]
          exact (name_chars (hv.2 nm (List.mem_cons_self nm []))).1
        | cons y ys => simp [joinComma]
    have hmapmk : (List.map String.data c).map (fun l => String.mk l) = c := by
      rw [List.map_map]
      have heq : ∀ s : String, (String.mk s.data) = s := fun s => String.ext rfl
      calc List.map ((fun l => String.mk l) ∘ String.data) c
        = List.map id c := List.map_congr_left (fun a _ => heq a)
        _ = c := List.map_id c
    have hmatch : matchTypeConditionsAt (joinComma (c.map String.data) ++ [']']) =
        some (c, []) := by
      have hscan := scanContent_spec (joinComma (c.map String.data)) [] []
        (by simpa using hbody_ne) hbody
      simp only [List.nil_append] at hscan
      unfold matchTypeConditionsAt
      rw [show joinComma (c.map String.data) ++ [']'] =
        joinComma (c.map String.data) ++ ']' :: [] from rfl, hscan]
      show some ((splitOnComma (joinComma (c.map String.data))).map
        (fun l => String.mk l), []) = some (c, [])
      rw [splitOnComma_joinComma (c.map String.data)
        (by simpa using hcne)
        (by
          intro part hp ch hcp
          obtain ⟨nm, hnm, rfl⟩ := List.mem_map.mp hp
          exact nameChar_ne ((name_chars (hv.2 nm hnm)).2 ch hcp) (by decide))]
      rw [hmapmk]
    have hfind : findTypeConditions ('|' :: '[' :: (joinComma (c.map String.data) ++ [']'])) =
        some ([], c, []) := by
      unfold findTypeConditions
      rw [if_pos rfl]
      show (match matchTypeConditionsAt (joinComma (c.map String.data) ++ [']']) with
        | some (tc, suffix) => some ([], tc, suffix)
        | none => (findTypeConditions ('[' :: (joinComma (c.map String.data) ++ [']']))).map
            (fun x => ('|' :: x.1, x.2.1, x.2.2))) = some ([], c, [])
      rw [hmatch]
    rw [hfind]
    simp

theorem digitsOnly_head_false {c : Char} {t : List Char}
    (h : isDigitChar c = false) : digitsOnly (c :: t) = false := by
  simp [digitsOnly, h]

theorem name_no_bar {s : String} (h : isGraphQLName s = true) :
    ∀ c ∈ s.data, c ≠ '|' :=
  fun c hc => nameChar_ne ((name_chars h).2 c hc) (by decide)

theorem name_head {s : String} (h : isGraphQLName s = true) :
    ∃ c t, s.data = c :: t ∧ isNameHead c = true := by
  unfold isGraphQLName at h
  cases hs : s.data with
  | nil => rw [hs] at h; cases h
  | cons c cs =>
    rw [hs] at h
    simp only [Bool.and_eq_true] at h
    exact ⟨c, cs, rfl, h.1⟩

/-- Marker characters of "... on " are inert for the regex and the key/index
shapes. -/
theorem fragmentMarker_facts :
    (∀ c ∈ fragmentMarker, c ≠ '|') ∧ (∀ c ∈ fragmentMarker, c ≠ '/') := by
  constructor <;> · intro c hc; fin_cases hc <;> decide

/-- Element round-trip: a valid element parses back from its canonical
rendering. -/
theorem parseElement_fmt {e : PathElement} (h : validElement e = true) :
    parseElement (fmtPathElement e) = e := by
  cases e with
  | Index i =>
    simp only [fmtPathElement, parseElement, digitsOnly_natToDecimal, if_true]
    rw [parseNatChars_natToDecimal]
  | Key k tc =>
    simp only [validElement, Bool.and_eq_true] at h
    obtain ⟨hk, hv⟩ := h
    obtain ⟨hc, tl, hdata, hhead⟩ := name_head hk
    have hsplit := @split_fmt k.data tc (name_no_bar hk) hv
    have hdig : digitsOnly (fmtPathElement (.Key k tc)) = false := by
      simp only [fmtPathElement, hdata, List.cons_append]
      exact digitsOnly_head_false (nameHead_not_digit hhead)
    have hflat : flattenVisit (fmtPathElement (.Key k tc)) = none := by
      simp only [flattenVisit, fmtPathElement, hsplit]
      rw [if_neg (show ¬(k.data = ['@']) by
        rw [hdata]
        intro hcontra
        simp only [List.cons.injEq] at hcontra
        exact nameHead_ne hhead (by decide) hcontra.1)]
    have hfrag : fragmentVisit (fmtPathElement (.Key k tc)) = none := by
      simp only [fragmentVisit, fmtPathElement, hdata, List.cons_append]
      rw [if_neg]
      intro hcontra
      simp only [List.take_succ_cons, fragmentMarker, List.cons.injEq] at hcontra
      exact nameHead_ne hhead (by decide) hcontra.1
    simp only [parseElement, hdig, Bool.false_eq_true, if_false, hflat, hfrag,
      keyVisit]
    rw [show fmtPathElement (.Key k tc) = k.data ++ fmtTypeConditions tc from rfl, hsplit]
  | Flatten tc =>
    have hv : validConditions tc = true := h
    have hsplit := @split_fmt ['@'] tc (by decide) hv
    have hdig : digitsOnly (fmtPathElement (.Flatten tc)) = false := by
      simp only [fmtPathElement]
      exact digitsOnly_head_false (by decide)
    have hflat : flattenVisit (fmtPathElement (.Flatten tc)) = some tc := by
      simp only [flattenVisit, fmtPathElement, List.singleton_append] at hsplit ⊢
      rw [hsplit]
      simp
    simp only [parseElement, hdig, Bool.false_eq_true, if_false, hflat]
  | Fragment name =>
    have hn : isGraphQLName name = true := h
    have hnobar : ∀ c ∈ fragmentMarker ++ name.data, c ≠ '|' := by
      intro c hc
      rcases List.mem_append.mp hc with h1 | h1
      · exact fragmentMarker_facts.1 c h1
      · exact name_no_bar hn c h1
    have hsplit := @split_fmt (fragmentMarker ++ name.data) none hnobar rfl
    simp only [fmtTypeConditions, List.append_nil] at hsplit
    have hdig : digitsOnly (fmtPathElement (.Fragment name)) = false := by
      simp only [fmtPathElement, fragmentMarker, List.cons_append]
      exact digitsOnly_head_false (by decide)
    have hflat : flattenVisit (fmtPathElement (.Fragment name)) = none := by
      simp only [flattenVisit, fmtPathElement, hsplit]
      try rw [if_neg (by simp [fragmentMarker])]
    have hfrag : fragmentVisit (fmtPathElement (.Fragment name)) = some name := by
      simp only [fragmentVisit, fmtPathElement]
      rw [if_pos (show (fragmentMarker ++ name.data).take 7 = fragmentMarker by
        rw [show (7 : Nat) = fragmentMarker.length from rfl, List.take_left])]
      rfl
    simp only [parseElement, hdig, Bool.false_eq_true, if_false, hflat, hfrag]

/-! ### Path-level round-trip -/

theorem segsSplit_no_slash {s : List Char} (h : ∀ c ∈ s, c ≠ '/') :
    segsSplit s = [s] := by
  induction s with
  | nil => rfl
  | cons c cs ih =>
    have hc : c ≠ '/' := h c (List.mem_cons_self c cs)
    have hr := ih (fun x hx => h x (List.mem_cons_of_mem c hx))
    simp [segsSplit, hc, hr]

theorem segsSplit_append {x t : List Char} (h : ∀ c ∈ x, c ≠ '/') :
    segsSplit (x ++ '/' :: t) = x :: segsSplit t := by
  induction x with
  | nil => simp [segsSplit]
  | cons c x ih =>
    have hc : c ≠ '/' := h c (List.mem_cons_self c x)
    have hr := ih (fun y hy => h y (List.mem_cons_of_mem c hy))
    simp [segsSplit, hc, hr]

theorem fmtPathElement_no_slash {e : PathElement} (h : validElement e = true) :
    ∀ c ∈ fmtPathElement e, c ≠ '/' := by
  cases e with
  | Index i =>
    intro c hc
    obtain ⟨-, -, hall⟩ := decDigits_spec (i + 1) i (by omega)
    have := List.all_eq_true.mp hall c hc
    exact digitChar_ne this (by decide)
  | Key k tc =>
    simp only [validElement, Bool.and_eq_true] at h
    intro c hc
    rcases List.mem_append.mp hc with h1 | h1
    · exact nameChar_ne ((name_chars h.1).2 c h1) (by decide)
    · rcases fmtTypeConditions_chars h.2 h1 with rfl | rfl | rfl | rfl | hn
      · decide
      · decide
      · decide
      · decide
      · exact nameChar_ne hn (by decide)
  | Flatten tc =>
    intro c hc
    rcases List.mem_cons.mp hc with rfl | h1
    · decide
    · rcases fmtTypeConditions_chars h h1 with rfl | rfl | rfl | rfl | hn
      · decide
      · decide
      · decide
      · decide
      · exact nameChar_ne hn (by decide)
  | Fragment name =>
    intro c hc
    rcases List.mem_append.mp hc with h1 | h1
    · exact fragmentMarker_facts.2 c h1
    · exact nameChar_ne ((name_chars h).2 c h1) (by decide)

theorem segsSplit_fmt : ∀ (es : Path) (e : PathElement), validElement e = true →
    validPath es = true →
    segsSplit (fmtPathElement e ++ formatPathChars es) =
      (e :: es).map fmtPathElement := by
  intro es
  induction es with
  | nil =>
    intro e he _
    simp only [formatPathChars, List.append_nil, List.map_cons, List.map_nil]
    exact segsSplit_no_slash (fmtPathElement_no_slash he)
  | cons e' es ih =>
    intro e he hes
    have hval : validElement e' = true ∧ validPath es = true := by
      simpa [validPath] using hes
    simp only [formatPathChars]
    rw [segsSplit_append (fmtPathElement_no_slash he), ih e' hval.1 hval.2]
    rfl

/-- Path round-trip for valid paths: parsing the canonical rendering gives
back the path. -/
theorem parse_fmt {p : Path} (h : validPath p = true) :
    Path.parse (Path.fmt p) = some p := by
  show parsePathChars (formatPathChars p) = some p
  cases p with
  | nil => rfl
  | cons e es =>
    have hval : validElement e = true ∧ validPath es = true := by
      simpa [validPath] using h
    simp only [formatPathChars, parsePathChars]
    rw [segsSplit_fmt es e hval.1 hval.2]
    congr 1
    rw [List.map_map]
    have : ∀ x ∈ e :: es, (parseElement ∘ fmtPathElement) x = id x := by
      intro x hx
      have hvx : validElement x = true := by
        rcases List.mem_cons.mp hx with rfl | hx2
        · exact hval.1
        · exact List.all_eq_true.mp hval.2 x hx2
      exact parseElement_fmt hvx
    rw [List.map_congr_left this, List.map_id]

/-! ## Selection model (src/src/router/selection.rs)

A selection that is part of a fetch; apollo_compiler::Name is modelled as
String. -/

mutual
inductive Selection where
  /-- A field selection. -/
  | Field (field : Field)
  /-- An inline fragment selection. -/
  | InlineFragment (inline_fragment : InlineFragment)
inductive Field where
  | mk (alias' : Option String) (name : String) (selections : Option (List Selection))
inductive InlineFragment where
  | mk (type_condition : Option String) (selections : List Selection)
end

def Field.alias' : Field → Option String
  | .mk a _ _ => a

def Field.name : Field → String
  | .mk _ n _ => n

def Field.selections : Field → Option (List Selection)
  | .mk _ _ s => s

/-- Field::response_name from selection.rs: the alias when present,
otherwise the field name. -/
def Field.response_name (f : Field) : String :=
  f.alias'.getD f.name

/-! Encoders for the Selection family. -/

mutual
def encSelection : Selection → List Nat
  | .Field f => 0 :: encField f
  | .InlineFragment i => 1 :: encInlineFragment i

def encField : Field → List Nat
  | .mk a n s => encOpt encStr a ++ (encStr n ++ encOptSelList s)

def encOptSelList : Option (List Selection) → List Nat
  | none => [0]
  | some xs => 1 :: xs.length :: encSelBody xs

def encSelBody : List Selection → List Nat
  | [] => []
  | x :: xs => encSelection x ++ encSelBody xs

def encInlineFragment : InlineFragment → List Nat
  | .mk tc sels => encOpt encStr tc ++ (sels.length :: encSelBody sels)
end

/-- Prefix-unambiguity statement for a Selection. -/
def SDSel (a : Selection) : Prop :=
  ∀ b r₁ r₂, encSelection a ++ r₁ = encSelection b ++ r₂ → a = b ∧ r₁ = r₂

/-- Prefix-unambiguity statement for a Field. -/
def SDField (f : Field) : Prop :=
  ∀ g r₁ r₂, encField f ++ r₁ = encField g ++ r₂ → f = g ∧ r₁ = r₂

/-- Prefix-unambiguity statement for an optional selection list. -/
def SDOptSels (o : Option (List Selection)) : Prop :=
  ∀ o' r₁ r₂, encOptSelList o ++ r₁ = encOptSelList o' ++ r₂ → o = o' ∧ r₁ = r₂

/-- Prefix-unambiguity statement for a selection list of known length. -/
def SDSelList (xs : List Selection) : Prop :=
  ∀ ys r₁ r₂, xs.length = ys.length →
    encSelBody xs ++ r₁ = encSelBody ys ++ r₂ → xs = ys ∧ r₁ = r₂

/-- Prefix-unambiguity statement for an InlineFragment. -/
def SDInline (i : InlineFragment) : Prop :=
  ∀ j r₁ r₂, encInlineFragment i ++ r₁ = encInlineFragment j ++ r₂ → i = j ∧ r₁ = r₂

theorem selection_sd : ∀ a : Selection, SDSel a := by
  refine encSelection.induct SDSel SDInline SDSelList SDField SDOptSels
    ?_ ?_ ?_ ?_ ?_ ?_ ?_ ?_
  · intro f hf b r₁ r₂ h
    cases b with
    | Field g =>
      simp only [encSelection, List.cons_append, List.cons.injEq] at h
      obtain ⟨rfl, hr⟩ := hf g r₁ r₂ h.2
      exact ⟨rfl, hr⟩
    | InlineFragment j => simp [encSelection] at h
  · intro i hi b r₁ r₂ h
    cases b with
    | Field g => simp [encSelection] at h
    | InlineFragment j =>
      simp only [encSelection, List.cons_append, List.cons.injEq] at h
      obtain ⟨rfl, hr⟩ := hi j r₁ r₂ h.2
      exact ⟨rfl, hr⟩
  · intro a name selections hsel g r₁ r₂ h
    cases g with
    | mk a' name' selections' =>
      simp only [encField, List.append_assoc] at h
      obtain ⟨rfl, h2⟩ := prefixInj_encOpt prefixInj_encStr _ _ _ _ h
      obtain ⟨rfl, h3⟩ := prefixInj_encStr _ _ _ _ h2
      obtain ⟨rfl, hr⟩ := hsel _ _ _ h3
      exact ⟨rfl, hr⟩
  · intro tc sels hsels j r₁ r₂ h
    cases j with
    | mk tc' sels' =>
      simp only [encInlineFragment, List.append_assoc] at h
      obtain ⟨rfl, h2⟩ := prefixInj_encOpt prefixInj_encStr _ _ _ _ h
      simp only [List.cons_append, List.cons.injEq] at h2
      obtain ⟨rfl, hr⟩ := hsels _ _ _ h2.1 h2.2
      exact ⟨rfl, hr⟩
  · intro o' r₁ r₂ h
    cases o' with
    | none => simpa [encOptSelList] using h
    | some ys => simp [encOptSelList] at h
  · intro xs hxs o' r₁ r₂ h
    cases o' with
    | none => simp [encOptSelList] at h
    | some ys =>
      simp only [encOptSelList, List.cons_append, List.cons.injEq] at h
      obtain ⟨rfl, hr⟩ := hxs _ _ _ h.2.1 h.2.2
      exact ⟨rfl, hr⟩
  · intro ys r₁ r₂ hlen h
    cases ys with
    | nil => simpa [encSelBody] using h
    | cons y ys => simp at hlen
  · intro x xs hx hxs ys r₁ r₂ hlen h
    cases ys with
    | nil => simp at hlen
    | cons y ys =>
      simp only [encSelBody, List.append_assoc] at h
      obtain ⟨rfl, h2⟩ := hx _ _ _ h
      obtain ⟨rfl, hr⟩ := hxs _ _ _ (by simpa using hlen) h2
      exact ⟨rfl, hr⟩

theorem prefixInj_encSelection : PrefixInj encSelection :=
  fun a => selection_sd a

theorem encSelection_injective : Function.Injective encSelection :=
  PrefixInj.injective prefixInj_encSelection

instance : DecidableEq Selection := fun a b =>
  decidable_of_iff (encSelection a = encSelection b)
    ⟨fun h => encSelection_injective h, fun h => by rw [h]⟩

instance : DecidableEq Field := fun f g =>
  decidable_of_iff (Selection.Field f = Selection.Field g)
    ⟨fun h => by cases h; rfl, fun h => by rw [h]⟩

instance : DecidableEq InlineFragment := fun i j =>
  decidable_of_iff (Selection.InlineFragment i = Selection.InlineFragment j)
    ⟨fun h => by cases h; rfl, fun h => by rw [h]⟩

/-! ## JSON values (serde_json_bytes::Value, used by DataRewrite)

A JSON value as carried by ValueSetter rewrites.  Numbers are modelled by
their literal text; no claim inspects numeric semantics. -/

mutual
inductive Value where
  | null
  | bool (b : Bool)
  | number (n : String)
  | string (s : String)
  | array (xs : List Value)
  | object (entries : List ValueEntry)
inductive ValueEntry where
  | mk (key : String) (value : Value)
end

mutual
def encValue : Value → List Nat
  | .null => [0]
  | .bool b => [1, cond b 1 0]
  | .number n => 2 :: encStr n
  | .string s => 3 :: encStr s
  | .array xs => 4 :: xs.length :: encValueBody xs
  | .object es => 5 :: es.length :: encEntryBody es

def encValueBody : List Value → List Nat
  | [] => []
  | x :: xs => encValue x ++ encValueBody xs

def encEntryBody : List ValueEntry → List Nat
  | [] => []
  | e :: es => encValueEntry e ++ encEntryBody es

def encValueEntry : ValueEntry → List Nat
  | .mk k v => encStr k ++ encValue v
end

/-- Prefix-unambiguity statement for a Value. -/
def SDValue (a : Value) : Prop :=
  ∀ b r₁ r₂, encValue a ++ r₁ = encValue b ++ r₂ → a = b ∧ r₁ = r₂

/-- Prefix-unambiguity statement for a Value list of known length. -/
def SDValueList (xs : List Value) : Prop :=
  ∀ ys r₁ r₂, xs.length = ys.length →
    encValueBody xs ++ r₁ = encValueBody ys ++ r₂ → xs = ys ∧ r₁ = r₂

/-- Prefix-unambiguity statement for a ValueEntry list of known length. -/
def SDEntryList (es : List ValueEntry) : Prop :=
  ∀ fs r₁ r₂, es.length = fs.length →
    encEntryBody es ++ r₁ = encEntryBody fs ++ r₂ → es = fs ∧ r₁ = r₂

/-- Prefix-unambiguity statement for a ValueEntry. -/
def SDEntry (e : ValueEntry) : Prop :=
  ∀ f r₁ r₂, encValueEntry e ++ r₁ = encValueEntry f ++ r₂ → e = f ∧ r₁ = r₂

theorem value_sd : ∀ a : Value, SDValue a := by
  refine encValue.induct SDValue SDEntryList SDEntry SDValueList
    ?_ ?_ ?_ ?_ ?_ ?_ ?_ ?_ ?_ ?_ ?_
  · intro b r₁ r₂ h
    cases b with
    | null => simp only [encValue, List.cons_append, List.nil_append,
        List.cons.injEq] at h; exact ⟨rfl, h.2⟩
    | bool b => simp [encValue] at h
    | number n => simp [encValue] at h
    | string s => simp [encValue] at h
    | array xs => simp [encValue] at h
    | object es => simp [encValue] at h
  · intro bb b r₁ r₂ h
    cases b with
    | bool b' =>
      simp only [encValue, List.cons_append, List.nil_append,
        List.cons.injEq] at h
      obtain ⟨-, hb, hr⟩ := h
      cases bb <;> cases b' <;> simp_all
    | null => simp [encValue] at h
    | number n => simp [encValue] at h
    | string s => simp [encValue] at h
    | array xs => simp [encValue] at h
    | object es => simp [encValue] at h
  · intro n b r₁ r₂ h
    cases b with
    | number n' =>
      simp only [encValue, List.cons_append, List.cons.injEq] at h
      obtain ⟨rfl, hr⟩ := prefixInj_encStr _ _ _ _ h.2
      exact ⟨rfl, hr⟩
    | null => simp [encValue] at h
    | bool b' => simp [encValue] at h
    | string s => simp [encValue] at h
    | array xs => simp [encValue] at h
    | object es => simp [encValue] at h
  · intro s b r₁ r₂ h
    cases b with
    | string s' =>
      simp only [encValue, List.cons_append, List.cons.injEq] at h
      obtain ⟨rfl, hr⟩ := prefixInj_encStr _ _ _ _ h.2
      exact ⟨rfl, hr⟩
    | null => simp [encValue] at h
    | bool b' => simp [encValue] at h
    | number n => simp [encValue] at h
    | array xs => simp [encValue] at h
    | object es => simp [encValue] at h
  · intro xs hxs b r₁ r₂ h
    cases b with
    | array ys =>
      simp only [encValue, List.cons_append, List.cons.injEq] at h
      obtain ⟨rfl, hr⟩ := hxs _ _ _ h.2.1 h.2.2
      exact ⟨rfl, hr⟩
    | null => simp [encValue] at h
    | bool b' => simp [encValue] at h
    | number n => simp [encValue] at h
    | string s => simp [encValue] at h
    | object es => simp [encValue] at h
  · intro es hes b r₁ r₂ h
    cases b with
    | object fs =>
      simp only [encValue, List.cons_append, List.cons.injEq] at h
      obtain ⟨rfl, hr⟩ := hes _ _ _ h.2.1 h.2.2
      exact ⟨rfl, hr⟩
    | null => simp [encValue] at h
    | bool b' => simp [encValue] at h
    | number n => simp [encValue] at h
    | string s => simp [encValue] at h
    | array xs => simp [encValue] at h
  · intro k v hv f r₁ r₂ h
    cases f with
    | mk k' v' =>
      simp only [encValueEntry, List.append_assoc] at h
      obtain ⟨rfl, h2⟩ := prefixInj_encStr _ _ _ _ h
      obtain ⟨rfl, hr⟩ := hv _ _ _ h2
      exact ⟨rfl, hr⟩
  · intro ys r₁ r₂ hlen h
    cases ys with
    | nil => simpa [encValueBody] using h
    | cons y ys => simp at hlen
  · intro x xs hx hxs ys r₁ r₂ hlen h
    cases ys with
    | nil => simp at hlen
    | cons y ys =>
      simp only [encValueBody, List.append_assoc] at h
      obtain ⟨rfl, h2⟩ := hx _ _ _ h
      obtain ⟨rfl, hr⟩ := hxs _ _ _ (by simpa using hlen) h2
      exact ⟨rfl, hr⟩
  · intro fs r₁ r₂ hlen h
    cases fs with
    | nil => simpa [encEntryBody] using h
    | cons f fs => simp at hlen
  · intro e es he hes fs r₁ r₂ hlen h
    cases fs with
    | nil => simp at hlen
    | cons f fs =>
      simp only [encEntryBody, List.append_assoc] at h
      obtain ⟨rfl, h2⟩ := he _ _ _ h
      obtain ⟨rfl, hr⟩ := hes _ _ _ (by simpa using hlen) h2
      exact ⟨rfl, hr⟩

theorem prefixInj_encValue : PrefixInj encValue :=
  fun a => value_sd a

instance : DecidableEq Value := fun a b =>
  decidable_of_iff (encValue a = encValue b)
    ⟨fun h => (PrefixInj.injective prefixInj_encValue) h, fun h => by rw [h]⟩

/-! ## Operation kinds and conversions (src/src/router/plan.rs) -/

/-- GraphQL operation type (OperationKind in plan.rs). -/
inductive OperationKind where
  | Query
  | Mutation
  | Subscription
  deriving DecidableEq

/-- apollo_compiler's ast::OperationType, as far as the conversions use it. -/
inductive AstOperationType where
  | Query
  | Mutation
  | Subscription
  deriving DecidableEq

/-- impl From OperationKind for ast::OperationType (plan.rs). -/
def operationTypeFromKind : OperationKind → AstOperationType
  | .Query => .Query
  | .Mutation => .Mutation
  | .Subscription => .Subscription

/-- impl From ast::OperationType for OperationKind (plan.rs). -/
def operationKindFromType : AstOperationType → OperationKind
  | .Query => .Query
  | .Mutation => .Mutation
  | .Subscription => .Subscription

def encOperationKind : OperationKind → List Nat
  | .Query => [0]
  | .Mutation => [1]
  | .Subscription => [2]

theorem prefixInj_encOperationKind : PrefixInj encOperationKind := by
  intro a b r₁ r₂ h
  cases a <;> cases b <;> simp [encOperationKind] at h <;> simp_all

/-! ## SubgraphOperation (src/src/router/plan.rs)

The serialized subquery text.  The parsed document field is commented out in
the source (no subgraph schemas are available during deserialization), so
the struct carries only the serialized text. -/

structure SubgraphOperation where
  serialized : String
  deriving DecidableEq

/-- SubgraphOperation::from_string (plan.rs). -/
def SubgraphOperation.from_string (s : String) : SubgraphOperation := ⟨s⟩

/-- SubgraphOperation::as_serialized (plan.rs). -/
def SubgraphOperation.as_serialized (op : SubgraphOperation) : String :=
  op.serialized

/-- impl PartialEq for SubgraphOperation (plan.rs, lines 232-236): equality
of the serialized texts. -/
def SubgraphOperation.eq (a b : SubgraphOperation) : Bool :=
  a.as_serialized == b.as_serialized

def encSubgraphOperation (op : SubgraphOperation) : List Nat :=
  encStr op.serialized

theorem prefixInj_encSubgraphOperation : PrefixInj encSubgraphOperation := by
  intro a b r₁ r₂ h
  obtain ⟨he, hr⟩ := prefixInj_encStr _ _ _ _ h
  cases a; cases b
  exact ⟨by simpa using he, hr⟩

/-! ## Data rewrites (src/src/router/plan.rs) -/

/-- DataValueSetter: sets a value at a path. -/
structure DataValueSetter where
  path : Path
  set_value_to : Value
  deriving DecidableEq

/-- DataKeyRenamer: renames a key at a path (Name modelled as String). -/
structure DataKeyRenamer where
  path : Path
  rename_key_to : String
  deriving DecidableEq

/-- DataRewrite: a value-setting or key-renaming transformation. -/
inductive DataRewrite where
  | ValueSetter (v : DataValueSetter)
  | KeyRenamer (k : DataKeyRenamer)
  deriving DecidableEq

def encPathElement : PathElement → List Nat
  | .Flatten tc => 0 :: encOpt (encListC encStr) tc
  | .Index i => 1 :: [i]
  | .Fragment n => 2 :: encStr n
  | .Key k tc => 3 :: (encStr k ++ encOpt (encListC encStr) tc)

theorem prefixInj_encPathElement : PrefixInj encPathElement := by
  intro a b r₁ r₂ h
  cases a <;> cases b <;>
    simp only [encPathElement, List.cons_append, List.cons.injEq,
      List.nil_append, List.append_assoc] at h <;> try omega
  · obtain ⟨-, h2⟩ := h
    obtain ⟨rfl, hr⟩ := prefixInj_encOpt (prefixInj_encListC prefixInj_encStr) _ _ _ _ h2
    exact ⟨rfl, hr⟩
  · exact ⟨by simp [h.2.1], h.2.2⟩
  · obtain ⟨-, h2⟩ := h
    obtain ⟨rfl, hr⟩ := prefixInj_encStr _ _ _ _ h2
    exact ⟨rfl, hr⟩
  · obtain ⟨-, h2⟩ := h
    obtain ⟨rfl, h3⟩ := prefixInj_encStr _ _ _ _ h2
    obtain ⟨rfl, hr⟩ := prefixInj_encOpt (prefixInj_encListC prefixInj_encStr) _ _ _ _ h3
    exact ⟨rfl, hr⟩

def encDataRewrite : DataRewrite → List Nat
  | .ValueSetter v => 0 :: (encListC encPathElement v.path ++ encValue v.set_value_to)
  | .KeyRenamer k => 1 :: (encListC encPathElement k.path ++ encStr k.rename_key_to)

theorem prefixInj_encDataRewrite : PrefixInj encDataRewrite := by
  intro a b r₁ r₂ h
  cases a with
  | ValueSetter v =>
    cases b with
    | ValueSetter v' =>
      simp only [encDataRewrite, List.cons_append, List.cons.injEq,
        List.append_assoc] at h
      obtain ⟨hp, h2⟩ := prefixInj_encListC prefixInj_encPathElement _ _ _ _ h.2
      obtain ⟨hv, hr⟩ := prefixInj_encValue _ _ _ _ h2
      cases v; cases v'
      simp_all
    | KeyRenamer k' => simp [encDataRewrite] at h
  | KeyRenamer k =>
    cases b with
    | ValueSetter v' => simp [encDataRewrite] at h
    | KeyRenamer k' =>
      simp only [encDataRewrite, List.cons_append, List.cons.injEq,
        List.append_assoc] at h
      obtain ⟨hp, h2⟩ := prefixInj_encListC prefixInj_encPathElement _ _ _ _ h.2
      obtain ⟨hk, hr⟩ := prefixInj_encStr _ _ _ _ h2
      cases k; cases k'
      simp_all

/-! ## FetchNode and SubscriptionNode (src/src/router/plan.rs) -/

/-- A fetch node: one request to one subgraph (Arc types flattened). -/
structure FetchNode where
  service_name : String
  requires : List Selection
  variable_usages : List String
  operation : SubgraphOperation
  operation_name : Option String
  operation_kind : OperationKind
  id : Option String
  input_rewrites : Option (List DataRewrite)
  output_rewrites : Option (List DataRewrite)
  context_rewrites : Option (List DataRewrite)
  deriving DecidableEq

/-- A subscription node (plan.rs). -/
structure SubscriptionNode where
  service_name : String
  variable_usages : List String
  operation : SubgraphOperation
  operation_name : Option String
  operation_kind : OperationKind
  input_rewrites : Option (List DataRewrite)
  output_rewrites : Option (List DataRewrite)
  deriving DecidableEq

/-- Depends: a fetch-id reference from a deferred node (plan.rs). -/
structure Depends where
  id : String
  deriving DecidableEq

def encRewrites : Option (List DataRewrite) → List Nat :=
  encOpt (encListC encDataRewrite)

theorem prefixInj_encRewrites : PrefixInj encRewrites :=
  prefixInj_encOpt (prefixInj_encListC prefixInj_encDataRewrite)

def encFetchNode (f : FetchNode) : List Nat :=
  encStr f.service_name ++
    (encListC encSelection f.requires ++
      (encListC encStr f.variable_usages ++
        (encSubgraphOperation f.operation ++
          (encOpt encStr f.operation_name ++
            (encOperationKind f.operation_kind ++
              (encOpt encStr f.id ++
                (encRewrites f.input_rewrites ++
                  (encRewrites f.output_rewrites ++
                    encRewrites f.context_rewrites))))))))

theorem prefixInj_encFetchNode : PrefixInj encFetchNode := by
  intro a b r₁ r₂ h
  simp only [encFetchNode, List.append_assoc] at h
  obtain ⟨h1, h⟩ := prefixInj_encStr _ _ _ _ h
  obtain ⟨h2, h⟩ := prefixInj_encListC prefixInj_encSelection _ _ _ _ h
  obtain ⟨h3, h⟩ := prefixInj_encListC prefixInj_encStr _ _ _ _ h
  obtain ⟨h4, h⟩ := prefixInj_encSubgraphOperation _ _ _ _ h
  obtain ⟨h5, h⟩ := prefixInj_encOpt prefixInj_encStr _ _ _ _ h
  obtain ⟨h6, h⟩ := prefixInj_encOperationKind _ _ _ _ h
  obtain ⟨h7, h⟩ := prefixInj_encOpt prefixInj_encStr _ _ _ _ h
  obtain ⟨h8, h⟩ := prefixInj_encRewrites _ _ _ _ h
  obtain ⟨h9, h⟩ := prefixInj_encRewrites _ _ _ _ h
  obtain ⟨h10, hr⟩ := prefixInj_encRewrites _ _ _ _ h
  cases a; cases b
  simp_all

def encSubscriptionNode (s : SubscriptionNode) : List Nat :=
  encStr s.service_name ++
    (encListC encStr s.variable_usages ++
      (encSubgraphOperation s.operation ++
        (encOpt encStr s.operation_name ++
          (encOperationKind s.operation_kind ++
            (encRewrites s.input_rewrites ++ encRewrites s.output_rewrites)))))

theorem prefixInj_encSubscriptionNode : PrefixInj encSubscriptionNode := by
  intro a b r₁ r₂ h
  simp only [encSubscriptionNode, List.append_assoc] at h
  obtain ⟨h1, h⟩ := prefixInj_encStr _ _ _ _ h
  obtain ⟨h2, h⟩ := prefixInj_encListC prefixInj_encStr _ _ _ _ h
  obtain ⟨h3, h⟩ := prefixInj_encSubgraphOperation _ _ _ _ h
  obtain ⟨h4, h⟩ := prefixInj_encOpt prefixInj_encStr _ _ _ _ h
  obtain ⟨h5, h⟩ := prefixInj_encOperationKind _ _ _ _ h
  obtain ⟨h6, h⟩ := prefixInj_encRewrites _ _ _ _ h
  obtain ⟨h7, hr⟩ := prefixInj_encRewrites _ _ _ _ h
  cases a; cases b
  simp_all

def encDepends (d : Depends) : List Nat := encStr d.id

theorem prefixInj_encDepends : PrefixInj encDepends := by
  intro a b r₁ r₂ h
  obtain ⟨he, hr⟩ := prefixInj_encStr _ _ _ _ h
  cases a; cases b
  exact ⟨congrArg Depends.mk he, hr⟩

/-! ## PlanNode (src/src/router/plan.rs)

The plan-node tree.  FlattenNode is inlined as the two fields of the
Flatten variant; Primary and DeferredNode are mutual with PlanNode because
they contain optional child plans. -/

mutual
inductive PlanNode where
  /-- These nodes must be executed in order. -/
  | Sequence (nodes : List PlanNode)
  /-- These nodes may be executed in parallel. -/
  | Parallel (nodes : List PlanNode)
  /-- Fetch some data from a subgraph. -/
  | Fetch (fetch : FetchNode)
  /-- Merge the current resultset with the response (FlattenNode inlined). -/
  | Flatten (path : Path) (node : PlanNode)
  | Defer (primary : Primary) (deferred : List DeferredNode)
  | Subscription (primary : SubscriptionNode) (rest : Option PlanNode)
  | Condition (condition : String) (if_clause : Option PlanNode)
      (else_clause : Option PlanNode)
inductive Primary where
  | mk (subselection : Option String) (node : Option PlanNode)
inductive DeferredNode where
  | mk (depends : List Depends) (label : Option String) (query_path : Path)
      (subselection : Option String) (node : Option PlanNode)
end

def Primary.subselection : Primary → Option String
  | .mk s _ => s

def Primary.node : Primary → Option PlanNode
  | .mk _ n => n

def DeferredNode.depends : DeferredNode → List Depends
  | .mk d _ _ _ _ => d

def DeferredNode.label : DeferredNode → Option String
  | .mk _ l _ _ _ => l

def DeferredNode.query_path : DeferredNode → Path
  | .mk _ _ q _ _ => q

def DeferredNode.subselection : DeferredNode → Option String
  | .mk _ _ _ s _ => s

def DeferredNode.node : DeferredNode → Option PlanNode
  | .mk _ _ _ _ n => n

/-! Encoders for the PlanNode family. -/

mutual
def encPlanNode : PlanNode → List Nat
  | .Sequence ns => 0 :: ns.length :: encPlanList ns
  | .Parallel ns => 1 :: ns.length :: encPlanList ns
  | .Fetch f => 2 :: encFetchNode f
  | .Flatten p n => 3 :: (encListC encPathElement p ++ encPlanNode n)
  | .Defer pr dfs => 4 :: (encPrimary pr ++ dfs.length :: encDeferredList dfs)
  | .Subscription s r => 5 :: (encSubscriptionNode s ++ encOptPlan r)
  | .Condition c i e => 6 :: (encStr c ++ (encOptPlan i ++ encOptPlan e))

def encPlanList : List PlanNode → List Nat
  | [] => []
  | n :: ns => encPlanNode n ++ encPlanList ns

def encPrimary : Primary → List Nat
  | .mk ss nd => encOpt encStr ss ++ encOptPlan nd

def encOptPlan : Option PlanNode → List Nat
  | none => [0]
  | some n => 1 :: encPlanNode n

def encDeferredList : List DeferredNode → List Nat
  | [] => []
  | d :: ds => encDeferredNode d ++ encDeferredList ds

def encDeferredNode : DeferredNode → List Nat
  | .mk dep lb qp ss nd =>
    encListC encDepends dep ++
      (encOpt encStr lb ++
        (encListC encPathElement qp ++ (encOpt encStr ss ++ encOptPlan nd)))
end

/-- Prefix-unambiguity statement for a PlanNode. -/
def SDPlan (a : PlanNode) : Prop :=
  ∀ b r₁ r₂, encPlanNode a ++ r₁ = encPlanNode b ++ r₂ → a = b ∧ r₁ = r₂

/-- Prefix-unambiguity statement for a PlanNode list of known length. -/
def SDPlanList (xs : List PlanNode) : Prop :=
  ∀ ys r₁ r₂, xs.length = ys.length →
    encPlanList xs ++ r₁ = encPlanList ys ++ r₂ → xs = ys ∧ r₁ = r₂

/-- Prefix-unambiguity statement for a Primary. -/
def SDPrimary (p : Primary) : Prop :=
  ∀ q r₁ r₂, encPrimary p ++ r₁ = encPrimary q ++ r₂ → p = q ∧ r₁ = r₂

/-- Prefix-unambiguity statement for an optional PlanNode. -/
def SDOptPlan (o : Option PlanNode) : Prop :=
  ∀ o' r₁ r₂, encOptPlan o ++ r₁ = encOptPlan o' ++ r₂ → o = o' ∧ r₁ = r₂

/-- Prefix-unambiguity statement for a DeferredNode list of known length. -/
def SDDeferredList (ds : List DeferredNode) : Prop :=
  ∀ es r₁ r₂, ds.length = es.length →
    encDeferredList ds ++ r₁ = encDeferredList es ++ r₂ → ds = es ∧ r₁ = r₂

/-- Prefix-unambiguity statement for a DeferredNode. -/
def SDDeferred (d : DeferredNode) : Prop :=
  ∀ e r₁ r₂, encDeferredNode d ++ r₁ = encDeferredNode e ++ r₂ → d = e ∧ r₁ = r₂

theorem plan_sd : ∀ a : PlanNode, SDPlan a := by
  refine encPlanNode.induct SDPlan SDOptPlan SDDeferredList SDDeferred SDPrimary
    SDPlanList ?_ ?_ ?_ ?_ ?_ ?_ ?_ ?_ ?_ ?_ ?_ ?_ ?_ ?_ ?_
  · intro ns hns b r₁ r₂ h
    cases b with
    | Sequence ms =>
      simp only [encPlanNode, List.cons_append, List.cons.injEq] at h
      obtain ⟨rfl, hr⟩ := hns _ _ _ h.2.1 h.2.2
      exact ⟨rfl, hr⟩
    | Parallel ms => simp [encPlanNode] at h
    | Fetch g => simp [encPlanNode] at h
    | Flatten q m => simp [encPlanNode] at h
    | Defer qr dgs => simp [encPlanNode] at h
    | Subscription t u => simp [encPlanNode] at h
    | Condition c i e => simp [encPlanNode] at h
  · intro ns hns b r₁ r₂ h
    cases b with
    | Parallel ms =>
      simp only [encPlanNode, List.cons_append, List.cons.injEq] at h
      obtain ⟨rfl, hr⟩ := hns _ _ _ h.2.1 h.2.2
      exact ⟨rfl, hr⟩
    | Sequence ms => simp [encPlanNode] at h
    | Fetch g => simp [encPlanNode] at h
    | Flatten q m => simp [encPlanNode] at h
    | Defer qr dgs => simp [encPlanNode] at h
    | Subscription t u => simp [encPlanNode] at h
    | Condition c i e => simp [encPlanNode] at h
  · intro f b r₁ r₂ h
    cases b with
    | Fetch g =>
      simp only [encPlanNode, List.cons_append, List.cons.injEq] at h
      obtain ⟨rfl, hr⟩ := prefixInj_encFetchNode _ _ _ _ h.2
      exact ⟨rfl, hr⟩
    | Sequence ms => simp [encPlanNode] at h
    | Parallel ms => simp [encPlanNode] at h
    | Flatten q m => simp [encPlanNode] at h
    | Defer qr dgs => simp [encPlanNode] at h
    | Subscription t u => simp [encPlanNode] at h
    | Condition c i e => simp [encPlanNode] at h
  · intro p n hn b r₁ r₂ h
    cases b with
    | Flatten q m =>
      simp only [encPlanNode, List.cons_append, List.cons.injEq,
        List.append_assoc] at h
      obtain ⟨rfl, h2⟩ := prefixInj_encListC prefixInj_encPathElement _ _ _ _ h.2
      obtain ⟨rfl, hr⟩ := hn _ _ _ h2
      exact ⟨rfl, hr⟩
    | Sequence ms => simp [encPlanNode] at h
    | Parallel ms => simp [encPlanNode] at h
    | Fetch g => simp [encPlanNode] at h
    | Defer qr dgs => simp [encPlanNode] at h
    | Subscription t u => simp [encPlanNode] at h
    | Condition c i e => simp [encPlanNode] at h
  · intro pr dfs hpr hdfs b r₁ r₂ h
    cases b with
    | Defer qr dgs =>
      simp only [encPlanNode, List.cons_append, List.cons.injEq,
        List.append_assoc] at h
      obtain ⟨rfl, h2⟩ := hpr _ _ _ h.2
      simp only [List.cons_append, List.cons.injEq] at h2
      obtain ⟨rfl, hr⟩ := hdfs _ _ _ h2.1 h2.2
      exact ⟨rfl, hr⟩
    | Sequence ms => simp [encPlanNode] at h
    | Parallel ms => simp [encPlanNode] at h
    | Fetch g => simp [encPlanNode] at h
    | Flatten q m => simp [encPlanNode] at h
    | Subscription t u => simp [encPlanNode] at h
    | Condition c i e => simp [encPlanNode] at h
  · intro sn r hr0 b r₁ r₂ h
    cases b with
    | Subscription t u =>
      simp only [encPlanNode, List.cons_append, List.cons.injEq,
        List.append_assoc] at h
      obtain ⟨rfl, h2⟩ := prefixInj_encSubscriptionNode _ _ _ _ h.2
      obtain ⟨rfl, hr⟩ := hr0 _ _ _ h2
      exact ⟨rfl, hr⟩
    | Sequence ms => simp [encPlanNode] at h
    | Parallel ms => simp [encPlanNode] at h
    | Fetch g => simp [encPlanNode] at h
    | Flatten q m => simp [encPlanNode] at h
    | Defer qr dgs => simp [encPlanNode] at h
    | Condition c i e => simp [encPlanNode] at h
  · intro c i e hi he b r₁ r₂ h
    cases b with
    | Condition c' i' e' =>
      simp only [encPlanNode, List.cons_append, List.cons.injEq,
        List.append_assoc] at h
      obtain ⟨rfl, h2⟩ := prefixInj_encStr _ _ _ _ h.2
      obtain ⟨rfl, h3⟩ := hi _ _ _ h2
      obtain ⟨rfl, hr⟩ := he _ _ _ h3
      exact ⟨rfl, hr⟩
    | Sequence ms => simp [encPlanNode] at h
    | Parallel ms => simp [encPlanNode] at h
    | Fetch g => simp [encPlanNode] at h
    | Flatten q m => simp [encPlanNode] at h
    | Defer qr dgs => simp [encPlanNode] at h
    | Subscription t u => simp [encPlanNode] at h
  · intro ss nd hnd q r₁ r₂ h
    cases q with
    | mk ss' nd' =>
      simp only [encPrimary, List.append_assoc] at h
      obtain ⟨rfl, h2⟩ := prefixInj_encOpt prefixInj_encStr _ _ _ _ h
      obtain ⟨rfl, hr⟩ := hnd _ _ _ h2
      exact ⟨rfl, hr⟩
  · intro dep lb qp ss nd hnd e r₁ r₂ h
    cases e with
    | mk dep' lb' qp' ss' nd' =>
      simp only [encDeferredNode, List.append_assoc] at h
      obtain ⟨rfl, h2⟩ := prefixInj_encListC prefixInj_encDepends _ _ _ _ h
      obtain ⟨rfl, h3⟩ := prefixInj_encOpt prefixInj_encStr _ _ _ _ h2
      obtain ⟨rfl, h4⟩ := prefixInj_encListC prefixInj_encPathElement _ _ _ _ h3
      obtain ⟨rfl, h5⟩ := prefixInj_encOpt prefixInj_encStr _ _ _ _ h4
      obtain ⟨rfl, hr⟩ := hnd _ _ _ h5
      exact ⟨rfl, hr⟩
  · intro ys r₁ r₂ hlen h
    cases ys with
    | nil => simpa [encPlanList] using h
    | cons y ys => simp at hlen
  · intro n ns hn hns ys r₁ r₂ hlen h
    cases ys with
    | nil => simp at hlen
    | cons y ys =>
      simp only [encPlanList, List.append_assoc] at h
      obtain ⟨rfl, h2⟩ := hn _ _ _ h
      obtain ⟨rfl, hr⟩ := hns _ _ _ (by simpa using hlen) h2
      exact ⟨rfl, hr⟩
  · intro es r₁ r₂ hlen h
    cases es with
    | nil => simpa [encDeferredList] using h
    | cons e es => simp at hlen
  · intro d ds hd hds es r₁ r₂ hlen h
    cases es with
    | nil => simp at hlen
    | cons e es =>
      simp only [encDeferredList, List.append_assoc] at h
      obtain ⟨rfl, h2⟩ := hd _ _ _ h
      obtain ⟨rfl, hr⟩ := hds _ _ _ (by simpa using hlen) h2
      exact ⟨rfl, hr⟩
  · intro o' r₁ r₂ h
    cases o' with
    | none => simpa [encOptPlan] using h
    | some m => simp [encOptPlan] at h
  · intro n hn o' r₁ r₂ h
    cases o' with
    | none => simp [encOptPlan] at h
    | some m =>
      simp only [encOptPlan, List.cons_append, List.cons.injEq] at h
      obtain ⟨rfl, hr⟩ := hn _ _ _ h.2
      exact ⟨rfl, hr⟩

theorem prefixInj_encPlanNode : PrefixInj encPlanNode :=
  fun a => plan_sd a

theorem encPlanNode_injective : Function.Injective encPlanNode :=
  PrefixInj.injective prefixInj_encPlanNode

instance : DecidableEq PlanNode := fun a b =>
  decidable_of_iff (encPlanNode a = encPlanNode b)
    ⟨fun h => encPlanNode_injective h, fun h => by rw [h]⟩

instance : DecidableEq Primary := fun p q =>
  decidable_of_iff (PlanNode.Defer p [] = PlanNode.Defer q [])
    ⟨fun h => by cases h; rfl, fun h => by rw [h]⟩

instance : DecidableEq DeferredNode := fun d e =>
  decidable_of_iff (PlanNode.Defer (.mk none none) [d] = PlanNode.Defer (.mk none none) [e])
    ⟨fun h => by cases h; rfl, fun h => by rw [h]⟩

/-! ## Query plan containers and legacy rendering (src/src/router/mod.rs) -/

/-- The root query plan container (plan.rs, struct QueryPlan). -/
structure QueryPlan where
  node : Option PlanNode

/-- Data coming from the plan method on the router bridge
(mod.rs, struct QueryPlanResult). -/
structure QueryPlanResult where
  formatted_query_plan : Option String
  query_plan : QueryPlan

/-! A structural model of the derived Debug pretty-printer used by
render_legacy_plan's format!("{js:#?}"): deterministic, recursive and
constructor-labelled; the exact spacing of the Rust output is not modelled. -/

def debugQuote (s : String) : String := "\"" ++ s ++ "\""

def debugOpt (f : α → String) : Option α → String
  | none => "None"
  | some a => "Some(" ++ f a ++ ")"

def debugListJoin : List String → String
  | [] => ""
  | [x] => x
  | x :: xs => x ++ ", " ++ debugListJoin xs

mutual
def debugSelection : Selection → String
  | .Field f => "Field(" ++ debugField f ++ ")"
  | .InlineFragment i => "InlineFragment(" ++ debugInlineFragment i ++ ")"

def debugField : Field → String
  | .mk a n s =>
    "Field \x7b alias: " ++ debugOpt debugQuote a ++ ", name: " ++ debugQuote n ++
      ", selections: " ++ debugOptSels s ++ " \x7d"

def debugOptSels : Option (List Selection) → String
  | none => "None"
  | some xs => "Some([" ++ debugSelList xs ++ "])"

def debugSelList : List Selection → String
  | [] => ""
  | [x] => debugSelection x
  | x :: xs => debugSelection x ++ ", " ++ debugSelList xs

def debugInlineFragment : InlineFragment → String
  | .mk tc sels =>
    "InlineFragment \x7b type_condition: " ++ debugOpt debugQuote tc ++
      ", selections: [" ++ debugSelList sels ++ "] \x7d"
end

mutual
def debugValue : Value → String
  | .null => "Null"
  | .bool b => cond b "Bool(true)" "Bool(false)"
  | .number n => "Number(" ++ n ++ ")"
  | .string s => "String(" ++ debugQuote s ++ ")"
  | .array xs => "Array([" ++ debugValueList xs ++ "])"
  | .object es => "Object(\x7b" ++ debugEntryList es ++ "\x7d)"

def debugValueList : List Value → String
  | [] => ""
  | [x] => debugValue x
  | x :: xs => debugValue x ++ ", " ++ debugValueList xs

def debugEntryList : List ValueEntry → String
  | [] => ""
  | [.mk k v] => debugQuote k ++ ": " ++ debugValue v
  | .mk k v :: es => debugQuote k ++ ": " ++ debugValue v ++ ", " ++ debugEntryList es
end

def debugPath (p : Path) : String := "Path(" ++ Path.fmt p ++ ")"

def debugDataRewrite : DataRewrite → String
  | .ValueSetter v =>
    "ValueSetter \x7b path: " ++ debugPath v.path ++ ", set_value_to: " ++
      debugValue v.set_value_to ++ " \x7d"
  | .KeyRenamer k =>
    "KeyRenamer \x7b path: " ++ debugPath k.path ++ ", rename_key_to: " ++
      debugQuote k.rename_key_to ++ " \x7d"

def debugOperationKind : OperationKind → String
  | .Query => "Query"
  | .Mutation => "Mutation"
  | .Subscription => "Subscription"

def debugRewrites (o : Option (List DataRewrite)) : String :=
  debugOpt (fun rs => "[" ++ debugListJoin (rs.map debugDataRewrite) ++ "]") o

def debugFetchNode (f : FetchNode) : String :=
  "FetchNode \x7b service_name: " ++ debugQuote f.service_name ++
    ", requires: [" ++ debugSelList f.requires ++
    "], variable_usages: [" ++ debugListJoin (f.variable_usages.map debugQuote) ++
    "], operation: " ++ debugQuote f.operation.serialized ++
    ", operation_name: " ++ debugOpt debugQuote f.operation_name ++
    ", operation_kind: " ++ debugOperationKind f.operation_kind ++
    ", id: " ++ debugOpt debugQuote f.id ++
    ", input_rewrites: " ++ debugRewrites f.input_rewrites ++
    ", output_rewrites: " ++ debugRewrites f.output_rewrites ++
    ", context_rewrites: " ++ debugRewrites f.context_rewrites ++ " \x7d"

def debugSubscriptionNode (s : SubscriptionNode) : String :=
  "SubscriptionNode \x7b service_name: " ++ debugQuote s.service_name ++
    ", variable_usages: [" ++ debugListJoin (s.variable_usages.map debugQuote) ++
    "], operation: " ++ debugQuote s.operation.serialized ++
    ", operation_name: " ++ debugOpt debugQuote s.operation_name ++
    ", operation_kind: " ++ debugOperationKind s.operation_kind ++
    ", input_rewrites: " ++ debugRewrites s.input_rewrites ++
    ", output_rewrites: " ++ debugRewrites s.output_rewrites ++ " \x7d"

mutual
def debugPlanNode : PlanNode → String
  | .Sequence ns => "Sequence \x7b nodes: [" ++ debugPlanList ns ++ "] \x7d"
  | .Parallel ns => "Parallel \x7b nodes: [" ++ debugPlanList ns ++ "] \x7d"
  | .Fetch f => "Fetch(" ++ debugFetchNode f ++ ")"
  | .Flatten p n =>
    "Flatten(FlattenNode \x7b path: " ++ debugPath p ++ ", node: " ++
      debugPlanNode n ++ " \x7d)"
  | .Defer pr dfs =>
    "Defer \x7b primary: " ++ debugPrimary pr ++ ", deferred: [" ++
      debugDeferredList dfs ++ "] \x7d"
  | .Subscription s r =>
    "Subscription \x7b primary: " ++ debugSubscriptionNode s ++ ", rest: " ++
      debugOptPlan r ++ " \x7d"
  | .Condition c i e =>
    "Condition \x7b condition: " ++ debugQuote c ++ ", if_clause: " ++
      debugOptPlan i ++ ", else_clause: " ++ debugOptPlan e ++ " \x7d"

def debugPlanList : List PlanNode → String
  | [] => ""
  | [n] => debugPlanNode n
  | n :: ns => debugPlanNode n ++ ", " ++ debugPlanList ns

def debugOptPlan : Option PlanNode → String
  | none => "None"
  | some n => "Some(" ++ debugPlanNode n ++ ")"

def debugPrimary : Primary → String
  | .mk ss nd =>
    "Primary \x7b subselection: " ++ debugOpt debugQuote ss ++ ", node: " ++
      debugOptPlan nd ++ " \x7d"

def debugDeferredList : List DeferredNode → String
  | [] => ""
  | [d] => debugDeferredNode d
  | d :: ds => debugDeferredNode d ++ ", " ++ debugDeferredList ds

def debugDeferredNode : DeferredNode → String
  | .mk dep lb qp ss nd =>
    "DeferredNode \x7b depends: [" ++
      debugListJoin (dep.map (fun d => "Depends \x7b id: " ++ debugQuote d.id ++ " \x7d")) ++
      "], label: " ++ debugOpt debugQuote lb ++
      ", query_path: " ++ debugPath qp ++
      ", subselection: " ++ debugOpt debugQuote ss ++
      ", node: " ++ debugOptPlan nd ++ " \x7d"
end

/-- render_legacy_plan from src/src/router/mod.rs: the empty string when the
plan has no root node, otherwise the Debug pretty-printing of the root. -/
def render_legacy_plan (js_plan : QueryPlanResult) : String :=
  match js_plan.query_plan.node with
  | none => ""
  | some js => debugPlanNode js

/-! ## Normalizer (modelled from the spec, section 4.3)

plan_compare.rs is not part of the provided sources.  The normalizer below
follows the spec: Parallel children sorted by a canonical key (primarily the
multiset of reachable service names, secondarily a full structural key — the
injective encoding stands in for the spec's structural hash), variable_usages
reduced to a sorted de-duplicated set, rewrite lists sorted by (path-string,
rewrite-kind), and the operation text re-printed through a stable printer,
modelled as an arbitrary function opn applied to the serialized text. -/

mutual
def serviceNames : PlanNode → List String
  | .Sequence ns => serviceNamesList ns
  | .Parallel ns => serviceNamesList ns
  | .Fetch f => [f.service_name]
  | .Flatten _ n => serviceNames n
  | .Defer (.mk _ nd) dfs => serviceNamesOpt nd ++ serviceNamesDeferredList dfs
  | .Subscription s r => s.service_name :: serviceNamesOpt r
  | .Condition _ i e => serviceNamesOpt i ++ serviceNamesOpt e

def serviceNamesList : List PlanNode → List String
  | [] => []
  | n :: ns => serviceNames n ++ serviceNamesList ns

def serviceNamesOpt : Option PlanNode → List String
  | none => []
  | some n => serviceNames n

def serviceNamesDeferredList : List DeferredNode → List String
  | [] => []
  | .mk _ _ _ _ nd :: ds => serviceNamesOpt nd ++ serviceNamesDeferredList ds
end

/-- Modelled from the spec: the canonical sort key of a Parallel child —
the sorted multiset of reachable service names, then the full structural
encoding as tiebreaker. -/
def canonKey (n : PlanNode) : List Nat :=
  encListC encStr (sortStrings (serviceNames n)) ++ encPlanNode n

/-- The canonical order on Parallel children. -/
def keyLeRel (a b : PlanNode) : Prop := lexLe (canonKey a) (canonKey b) = true

instance : DecidableRel keyLeRel := fun _ _ => instDecidableEqBool _ _

instance : IsTotal PlanNode keyLeRel := ⟨fun a b => lexLe_total (canonKey a) (canonKey b)⟩

instance : IsTrans PlanNode keyLeRel :=
  ⟨fun a b c => lexLe_trans (canonKey a) (canonKey b) (canonKey c)⟩

theorem canonKey_injective : Function.Injective canonKey := by
  intro a b h
  have h2 : encListC encStr (sortStrings (serviceNames a)) ++ encPlanNode a =
      encListC encStr (sortStrings (serviceNames b)) ++ encPlanNode b := h
  obtain ⟨-, h3⟩ := prefixInj_encListC prefixInj_encStr _ _ _ _ h2
  exact encPlanNode_injective h3

instance : IsAntisymm PlanNode keyLeRel :=
  ⟨fun a b h₁ h₂ => canonKey_injective (lexLe_antisymm _ _ h₁ h₂)⟩

/-- Modelled from the spec: canonical sorting of Parallel children. -/
def sortCanonical (ns : List PlanNode) : List PlanNode :=
  List.insertionSort keyLeRel ns

/-- Sort key of a rewrite: (path-string, rewrite-kind), per the spec. -/
def rewriteKey : DataRewrite → List Nat
  | .ValueSetter v => encStr (Path.fmt v.path) ++ [0]
  | .KeyRenamer k => encStr (Path.fmt k.path) ++ [1]

/-- Order on rewrites by (path-string, rewrite-kind). -/
def rewriteLeRel (a b : DataRewrite) : Prop :=
  lexLe (rewriteKey a) (rewriteKey b) = true

instance : DecidableRel rewriteLeRel := fun _ _ => instDecidableEqBool _ _

/-- Modelled from the spec: rewrite lists sorted by (path-string, kind). -/
def sortRewrites (o : Option (List DataRewrite)) : Option (List DataRewrite) :=
  o.map (List.insertionSort rewriteLeRel)

/-- Modelled from the spec: normalization of a fetch node; opn is the stable
operation pretty-printer. -/
def normalizeFetch (opn : String → String) (f : FetchNode) : FetchNode :=
  { f with
    variable_usages := sortedDedup f.variable_usages
    operation := ⟨opn f.operation.serialized⟩
    input_rewrites := sortRewrites f.input_rewrites
    output_rewrites := sortRewrites f.output_rewrites
    context_rewrites := sortRewrites f.context_rewrites }

/-- Modelled from the spec: normalization of a subscription node. -/
def normalizeSubscription (opn : String → String) (s : SubscriptionNode) :
    SubscriptionNode :=
  { s with
    variable_usages := sortedDedup s.variable_usages
    operation := ⟨opn s.operation.serialized⟩
    input_rewrites := sortRewrites s.input_rewrites
    output_rewrites := sortRewrites s.output_rewrites }

mutual
/-- Modelled from the spec: the normalizer (spec 4.3).  Sequence order,
Defer and Subscription structure and Condition branches are preserved. -/
def normalizePlanNode (opn : String → String) : PlanNode → PlanNode
  | .Sequence ns => .Sequence (normalizePlanList opn ns)
  | .Parallel ns => .Parallel (sortCanonical (normalizePlanList opn ns))
  | .Fetch f => .Fetch (normalizeFetch opn f)
  | .Flatten p n => .Flatten p (normalizePlanNode opn n)
  | .Defer pr dfs => .Defer (normalizePrimary opn pr) (normalizeDeferredList opn dfs)
  | .Subscription s r => .Subscription (normalizeSubscription opn s) (normalizeOptPlan opn r)
  | .Condition c i e => .Condition c (normalizeOptPlan opn i) (normalizeOptPlan opn e)

def normalizePlanList (opn : String → String) : List PlanNode → List PlanNode
  | [] => []
  | n :: ns => normalizePlanNode opn n :: normalizePlanList opn ns

def normalizePrimary (opn : String → String) : Primary → Primary
  | .mk ss nd => .mk ss (normalizeOptPlan opn nd)

def normalizeOptPlan (opn : String → String) : Option PlanNode → Option PlanNode
  | none => none
  | some n => some (normalizePlanNode opn n)

def normalizeDeferredList (opn : String → String) : List DeferredNode → List DeferredNode
  | [] => []
  | d :: ds => normalizeDeferred opn d :: normalizeDeferredList opn ds

def normalizeDeferred (opn : String → String) : DeferredNode → DeferredNode
  | .mk dep lb qp ss nd => .mk dep lb qp ss (normalizeOptPlan opn nd)
end

/-! ## Matcher (modelled from the spec, section 4.4) -/

/-- A reported, non-fatal divergence (spec section 7). -/
inductive Divergence where
  | NodeKindMismatch (a_kind b_kind : String)
  | ChildCountMismatch (expected actual : Nat)
  | FieldMismatch (field : String)
  | UnmatchedSetMember
  deriving DecidableEq

/-- Discriminator name of a plan node kind. -/
def kindName : PlanNode → String
  | .Sequence _ => "Sequence"
  | .Parallel _ => "Parallel"
  | .Fetch _ => "Fetch"
  | .Flatten _ _ => "Flatten"
  | .Defer _ _ => "Defer"
  | .Subscription _ _ => "Subscription"
  | .Condition _ _ _ => "Condition"

/-- Modelled from the spec: field-by-field comparison of two fetch nodes,
each unequal field yielding its own divergence; variable_usages compared as
sets. -/
def compareFetchNode (f g : FetchNode) : List Divergence :=
  (if f.service_name = g.service_name then [] else [.FieldMismatch "service_name"]) ++
    ((if f.operation_kind = g.operation_kind then [] else [.FieldMismatch "operation_kind"]) ++
      ((if f.operation_name = g.operation_name then [] else [.FieldMismatch "operation_name"]) ++
        ((if sortedDedup f.variable_usages = sortedDedup g.variable_usages then []
          else [.FieldMismatch "variable_usages"]) ++
          ((if f.requires = g.requires then [] else [.FieldMismatch "requires"]) ++
            ((if SubgraphOperation.eq f.operation g.operation then []
              else [.FieldMismatch "operation"]) ++
              ((if f.input_rewrites = g.input_rewrites then []
                else [.FieldMismatch "input_rewrites"]) ++
                ((if f.output_rewrites = g.output_rewrites then []
                  else [.FieldMismatch "output_rewrites"]) ++
                  (if f.context_rewrites = g.context_rewrites then []
                    else [.FieldMismatch "context_rewrites"]))))))))

/-- Modelled from the spec: field-by-field comparison of subscription nodes. -/
def compareSubscriptionNode (s t : SubscriptionNode) : List Divergence :=
  (if s.service_name = t.service_name then [] else [.FieldMismatch "service_name"]) ++
    ((if s.operation_kind = t.operation_kind then [] else [.FieldMismatch "operation_kind"]) ++
      ((if s.operation_name = t.operation_name then [] else [.FieldMismatch "operation_name"]) ++
        ((if sortedDedup s.variable_usages = sortedDedup t.variable_usages then []
          else [.FieldMismatch "variable_usages"]) ++
          ((if SubgraphOperation.eq s.operation t.operation then []
            else [.FieldMismatch "operation"]) ++
            ((if s.input_rewrites = t.input_rewrites then []
              else [.FieldMismatch "input_rewrites"]) ++
              (if s.output_rewrites = t.output_rewrites then []
                else [.FieldMismatch "output_rewrites"]))))))

/-- Find and remove the first deferred block with the given query path. -/
def extractByPath (qp : Path) : List DeferredNode →
    Option (DeferredNode × List DeferredNode)
  | [] => none
  | d :: ds =>
    if d.query_path = qp then some (d, ds)
    else
      match extractByPath qp ds with
      | none => none
      | some (e, rest) => some (e, d :: rest)

mutual
/-- Modelled from the spec: the recursive matcher (spec 4.4).  Kind mismatch
stops recursion for that subtree; Sequence and Parallel compare element-wise
after normalization, collecting all divergences; Defer deferred blocks are
matched as a set keyed by query_path. -/
def comparePlanNode : PlanNode → PlanNode → List Divergence
  | .Sequence ns, .Sequence ms =>
    if ns.length = ms.length then compareZip ns ms
    else [.ChildCountMismatch ns.length ms.length]
  | .Parallel ns, .Parallel ms =>
    if ns.length = ms.length then compareZip ns ms
    else [.ChildCountMismatch ns.length ms.length]
  | .Fetch f, .Fetch g => compareFetchNode f g
  | .Flatten p n, .Flatten q m =>
    (if p = q then [] else [.FieldMismatch "path"]) ++ comparePlanNode n m
  | .Defer pr dfs, .Defer qr dgs => comparePrimaryNodes pr qr ++ compareDeferredLists dfs dgs
  | .Subscription s r, .Subscription t u =>
    compareSubscriptionNode s t ++ compareOptPlan r u
  | .Condition c i e, .Condition c' i' e' =>
    (if c = c' then [] else [.FieldMismatch "condition"]) ++
      (compareOptPlan i i' ++ compareOptPlan e e')
  | a, b => [.NodeKindMismatch (kindName a) (kindName b)]
termination_by structural a _ => a

def compareZip : List PlanNode → List PlanNode → List Divergence
  | [], _ => []
  | _ :: _, [] => []
  | n :: ns, m :: ms => comparePlanNode n m ++ compareZip ns ms
termination_by structural a _ => a

def comparePrimaryNodes : Primary → Primary → List Divergence
  | .mk ss nd, .mk ss' nd' =>
    (if ss = ss' then [] else [.FieldMismatch "subselection"]) ++ compareOptPlan nd nd'
termination_by structural a _ => a

def compareOptPlan : Option PlanNode → Option PlanNode → List Divergence
  | none, none => []
  | some a, some b => comparePlanNode a b
  | _, _ => [.FieldMismatch "node"]
termination_by structural a _ => a

def compareDeferredLists : List DeferredNode → List DeferredNode → List Divergence
  | [], pool => pool.map (fun _ => .UnmatchedSetMember)
  | d :: ds, pool =>
    match extractByPath d.query_path pool with
    | none => .UnmatchedSetMember :: compareDeferredLists ds pool
    | some (d', pool') => compareDeferredPair d d' ++ compareDeferredLists ds pool'
termination_by structural a _ => a

def compareDeferredPair : DeferredNode → DeferredNode → List Divergence
  | .mk dep lb _ ss nd, .mk dep' lb' _ ss' nd' =>
    (if sortStrings (dep.map Depends.id) = sortStrings (dep'.map Depends.id) then []
      else [.FieldMismatch "depends"]) ++
      ((if lb = lb' then [] else [.FieldMismatch "label"]) ++
        ((if ss = ss' then [] else [.FieldMismatch "subselection"]) ++
          compareOptPlan nd nd'))
termination_by structural a _ => a
end

/-- Modelled from the spec: plan_matches — success iff no divergence between
the two normalized trees. -/
def plan_matches (opn : String → String) (a b : PlanNode) : Bool :=
  (comparePlanNode (normalizePlanNode opn a) (normalizePlanNode opn b)).isEmpty

/-! ## Adaptation validation (modelled from the spec, sections 3 and 7)

Every id referenced by a Depends must match exactly one fetch id reachable
from the enclosing Defer's primary; otherwise adaptation fails with
AdaptationFailure before any comparison. -/

mutual
def fetchIds : PlanNode → List String
  | .Sequence ns => fetchIdsList ns
  | .Parallel ns => fetchIdsList ns
  | .Fetch f =>
    match f.id with
    | some i => [i]
    | none => []
  | .Flatten _ n => fetchIds n
  | .Defer (.mk _ nd) dfs => fetchIdsOpt nd ++ fetchIdsDeferredList dfs
  | .Subscription _ r => fetchIdsOpt r
  | .Condition _ i e => fetchIdsOpt i ++ fetchIdsOpt e

def fetchIdsList : List PlanNode → List String
  | [] => []
  | n :: ns => fetchIds n ++ fetchIdsList ns

def fetchIdsOpt : Option PlanNode → List String
  | none => []
  | some n => fetchIds n

def fetchIdsDeferredList : List DeferredNode → List String
  | [] => []
  | .mk _ _ _ _ nd :: ds => fetchIdsOpt nd ++ fetchIdsDeferredList ds
end

/-- All depends ids of the deferred blocks hit exactly one fetch id among
ids. -/
def dependsOkAll (ids : List String) (dfs : List DeferredNode) : Bool :=
  dfs.all (fun d => d.depends.all (fun dep => ids.count dep.id == 1))

mutual
/-- Modelled from the spec: the adaptation-time validation of Depends
references, checked before any comparison. -/
def validateDepends : PlanNode → Bool
  | .Sequence ns => validateDependsList ns
  | .Parallel ns => validateDependsList ns
  | .Fetch _ => true
  | .Flatten _ n => validateDepends n
  | .Defer (.mk _ nd) dfs =>
    dependsOkAll (fetchIdsOpt nd) dfs &&
      (validateDependsOpt nd && validateDependsDeferredList dfs)
  | .Subscription _ r => validateDependsOpt r
  | .Condition _ i e => validateDependsOpt i && validateDependsOpt e

def validateDependsList : List PlanNode → Bool
  | [] => true
  | n :: ns => validateDepends n && validateDependsList ns

def validateDependsOpt : Option PlanNode → Bool
  | none => true
  | some n => validateDepends n

def validateDependsDeferredList : List DeferredNode → Bool
  | [] => true
  | .mk _ _ _ _ nd :: ds => validateDependsOpt nd && validateDependsDeferredList ds
end

/-- Adaptation failure: the external representation could not be mapped into
the common model. -/
inductive AdaptError where
  | adaptationFailure
  deriving DecidableEq

/-- Result of the checked comparison pipeline. -/
inductive AdaptCheckResult where
  | ok (divergences : List Divergence)
  | error (e : AdaptError)
  deriving DecidableEq

/-- Modelled from the spec: the comparison pipeline — both sides validated
at adaptation time; a validation failure aborts with AdaptationFailure
before any comparison. -/
def comparePlansChecked (opn : String → String) (a b : PlanNode) :
    AdaptCheckResult :=
  if validateDepends a then
    if validateDepends b then
      .ok (comparePlanNode (normalizePlanNode opn a) (normalizePlanNode opn b))
    else .error .adaptationFailure
  else .error .adaptationFailure

/-! ## Matcher reflexivity -/

theorem compareFetchNode_refl (f : FetchNode) : compareFetchNode f f = [] := by
  simp [compareFetchNode, SubgraphOperation.eq]

theorem compareSubscriptionNode_refl (s : SubscriptionNode) :
    compareSubscriptionNode s s = [] := by
  simp [compareSubscriptionNode, SubgraphOperation.eq]

/-- Diagonal motive for the matcher: equal inputs produce no divergence. -/
def ReflPlan (a b : PlanNode) : Prop := a = b → comparePlanNode a b = []

/-- Diagonal motive for optional nodes. -/
def ReflOpt (o o' : Option PlanNode) : Prop := o = o' → compareOptPlan o o' = []

/-- Diagonal motive for deferred lists. -/
def ReflDefList (ds pool : List DeferredNode) : Prop :=
  ds = pool → compareDeferredLists ds pool = []

/-- Diagonal motive for deferred pairs. -/
def ReflDefPair (d e : DeferredNode) : Prop := d = e → compareDeferredPair d e = []

/-- Diagonal motive for primaries. -/
def ReflPrimary (p q : Primary) : Prop := p = q → comparePrimaryNodes p q = []

/-- Diagonal motive for child lists. -/
def ReflZip (ns ms : List PlanNode) : Prop := ns = ms → compareZip ns ms = []

theorem compare_refl_aux : ∀ a b : PlanNode, ReflPlan a b := by
  refine comparePlanNode.induct ReflPlan ReflOpt ReflDefList ReflDefPair
    ReflPrimary ReflZip ?_ ?_ ?_ ?_ ?_ ?_ ?_ ?_ ?_ ?_ ?_ ?_ ?_ ?_ ?_ ?_ ?_ ?_ ?_ ?_ ?_
  · intro ns ms hlen h6 heq
    obtain rfl : ns = ms := by injection heq
    simp [comparePlanNode, h6 rfl]
  · intro ns ms hlen heq
    obtain rfl : ns = ms := by injection heq
    exact absurd rfl hlen
  · intro ns ms hlen h6 heq
    obtain rfl : ns = ms := by injection heq
    simp [comparePlanNode, h6 rfl]
  · intro ns ms hlen heq
    obtain rfl : ns = ms := by injection heq
    exact absurd rfl hlen
  · intro f g heq
    obtain rfl : f = g := by injection heq
    simpa [comparePlanNode] using compareFetchNode_refl f
  · intro p n q m hm heq
    obtain ⟨rfl, rfl⟩ : p = q ∧ n = m := by
      injection heq with h1 h2
      exact ⟨h1, h2⟩
    simp [comparePlanNode, hm rfl]
  · intro pr dfs qr dgs h5 h3 heq
    obtain ⟨rfl, rfl⟩ : pr = qr ∧ dfs = dgs := by
      injection heq with h1 h2
      exact ⟨h1, h2⟩
    simp [comparePlanNode, h5 rfl, h3 rfl]
  · intro sn r t u h2 heq
    obtain ⟨rfl, rfl⟩ : sn = t ∧ r = u := by
      injection heq with h1 hh
      exact ⟨h1, hh⟩
    simp [comparePlanNode, compareSubscriptionNode_refl, h2 rfl]
  · intro c i e c' i' e' h2i h2e heq
    obtain ⟨rfl, rfl, rfl⟩ : c = c' ∧ i = i' ∧ e = e' := by
      injection heq with h1 h2 h3
      exact ⟨h1, h2, h3⟩
    simp [comparePlanNode, h2i rfl, h2e rfl]
  · intro a b hseq hpar hfetch hflat hdefer hsub hcond heq
    subst heq
    cases a with
    | Sequence ns => exact (hseq ns ns rfl rfl).elim
    | Parallel ns => exact (hpar ns ns rfl rfl).elim
    | Fetch f => exact (hfetch f f rfl rfl).elim
    | Flatten p n => exact (hflat p n p n rfl rfl).elim
    | Defer pr dfs => exact (hdefer pr dfs pr dfs rfl rfl).elim
    | Subscription s r => exact (hsub s r s r rfl rfl).elim
    | Condition c i e => exact (hcond c i e c i e rfl rfl).elim
  · intro ss nd ss' nd' h2 heq
    obtain ⟨rfl, rfl⟩ : ss = ss' ∧ nd = nd' := by
      injection heq with h1 hh
      exact ⟨h1, hh⟩
    simp [comparePrimaryNodes, h2 rfl]
  · intro dep lb qp ss nd dep' lb' qp' ss' nd' h2 heq
    obtain ⟨rfl, rfl, rfl, rfl, rfl⟩ :
        dep = dep' ∧ lb = lb' ∧ qp = qp' ∧ ss = ss' ∧ nd = nd' := by
      injection heq with h1 h2' h3 h4 h5
      exact ⟨h1, h2', h3, h4, h5⟩
    simp [compareDeferredPair, h2 rfl]
  · intro x heq
    subst heq
    rfl
  · intro hd tl heq
    cases heq
  · intro n ns m ms h1 h6 heq
    obtain ⟨rfl, rfl⟩ : n = m ∧ ns = ms := by
      injection heq with ha hb
      exact ⟨ha, hb⟩
    simp [compareZip, h1 rfl, h6 rfl]
  · intro pool heq
    subst heq
    rfl
  · intro d ds pool hext h3 heq
    subst heq
    simp [extractByPath] at hext
  · intro d ds pool e rest hext h4 h3 heq
    subst heq
    simp only [extractByPath, if_pos rfl] at hext
    obtain ⟨rfl, rfl⟩ : e = d ∧ rest = ds := by
      injection hext with hh
      injection hh with h1 h2
      exact ⟨h1.symm, h2.symm⟩
    simp [compareDeferredLists, extractByPath, h4 rfl, h3 rfl]
  · intro _
    rfl
  · intro a b h1 heq
    obtain rfl : a = b := by injection heq
    simpa [compareOptPlan] using h1 rfl
  · intro t x hnone hsome heq
    subst heq
    cases t with
    | none => exact (hnone rfl rfl).elim
    | some n => exact (hsome n n rfl rfl).elim

/-- The matcher is reflexive: a tree compared with itself yields no
divergence. -/
theorem compare_refl (x : PlanNode) : comparePlanNode x x = [] :=
  compare_refl_aux x x rfl

/-! ## Normalization lemmas and the reorder relation -/

theorem normalizePlanList_eq_map (opn : String → String) :
    ∀ ns : List PlanNode, normalizePlanList opn ns = ns.map (normalizePlanNode opn)
  | [] => rfl
  | n :: ns => by
    simp [normalizePlanList, normalizePlanList_eq_map opn ns]

theorem normalizeDeferredList_eq_map (opn : String → String) :
    ∀ ds : List DeferredNode,
      normalizeDeferredList opn ds = ds.map (normalizeDeferred opn)
  | [] => rfl
  | d :: ds => by
    simp [normalizeDeferredList, normalizeDeferredList_eq_map opn ds]

theorem sortCanonical_eq_of_perm {ns ms : List PlanNode} (h : ns.Perm ms) :
    sortCanonical ns = sortCanonical ms := by
  have hperm : (List.insertionSort keyLeRel ns).Perm (List.insertionSort keyLeRel ms) :=
    ((List.perm_insertionSort keyLeRel ns).trans h).trans
      (List.perm_insertionSort keyLeRel ms).symm
  exact List.eq_of_perm_of_sorted hperm
    (List.sorted_insertionSort keyLeRel ns)
    (List.sorted_insertionSort keyLeRel ms)

/-- T' arises from T by reordering the children of exactly one Parallel node
(at any position in the tree). -/
inductive Reorder : PlanNode → PlanNode → Prop where
  | perm {ns ms : List PlanNode} : ns.Perm ms →
      Reorder (.Parallel ns) (.Parallel ms)
  | sequenceAt (pre post : List PlanNode) {a b : PlanNode} : Reorder a b →
      Reorder (.Sequence (pre ++ a :: post)) (.Sequence (pre ++ b :: post))
  | parallelAt (pre post : List PlanNode) {a b : PlanNode} : Reorder a b →
      Reorder (.Parallel (pre ++ a :: post)) (.Parallel (pre ++ b :: post))
  | flattenChild {p : Path} {a b : PlanNode} : Reorder a b →
      Reorder (.Flatten p a) (.Flatten p b)
  | deferPrimary {ss : Option String} {a b : PlanNode} {dfs : List DeferredNode} :
      Reorder a b →
      Reorder (.Defer (.mk ss (some a)) dfs) (.Defer (.mk ss (some b)) dfs)
  | deferDeferredAt {pr : Primary} (pre post : List DeferredNode)
      {dep : List Depends} {lb : Option String} {qp : Path} {ss : Option String}
      {a b : PlanNode} : Reorder a b →
      Reorder (.Defer pr (pre ++ .mk dep lb qp ss (some a) :: post))
        (.Defer pr (pre ++ .mk dep lb qp ss (some b) :: post))
  | subscriptionRest {s : SubscriptionNode} {a b : PlanNode} : Reorder a b →
      Reorder (.Subscription s (some a)) (.Subscription s (some b))
  | conditionIf {c : String} {a b : PlanNode} {e : Option PlanNode} : Reorder a b →
      Reorder (.Condition c (some a) e) (.Condition c (some b) e)
  | conditionElse {c : String} {i : Option PlanNode} {a b : PlanNode} : Reorder a b →
      Reorder (.Condition c i (some a)) (.Condition c i (some b))

/-- Normalization is invariant under reordering a Parallel node's children. -/
theorem reorder_normalize_eq (opn : String → String) {t t' : PlanNode}
    (h : Reorder t t') : normalizePlanNode opn t = normalizePlanNode opn t' := by
  induction h with
  | perm hp =>
    simp only [normalizePlanNode, normalizePlanList_eq_map]
    exact congrArg PlanNode.Parallel (sortCanonical_eq_of_perm (hp.map _))
  | sequenceAt pre post hre ih =>
    simp only [normalizePlanNode, normalizePlanList_eq_map, List.map_append,
      List.map_cons, ih]
  | parallelAt pre post hre ih =>
    simp only [normalizePlanNode, normalizePlanList_eq_map, List.map_append,
      List.map_cons, ih]
  | flattenChild hre ih =>
    simp only [normalizePlanNode, ih]
  | deferPrimary hre ih =>
    simp only [normalizePlanNode, normalizePrimary, normalizeOptPlan, ih]
  | deferDeferredAt pre post hre ih =>
    simp only [normalizePlanNode, normalizeDeferredList_eq_map, List.map_append,
      List.map_cons, normalizeDeferred, normalizeOptPlan, ih]
  | subscriptionRest hre ih =>
    simp only [normalizePlanNode, normalizeOptPlan, ih]
  | conditionIf hre ih =>
    simp only [normalizePlanNode, normalizeOptPlan, ih]
  | conditionElse hre ih =>
    simp only [normalizePlanNode, normalizeOptPlan, ih]

/-! ## Occurrence relation and validation lemmas -/

/-- n occurs as a (recursive) subnode of the second argument. -/
inductive Occurs : PlanNode → PlanNode → Prop where
  | refl (n : PlanNode) : Occurs n n
  | sequenceMem {n x : PlanNode} {ns : List PlanNode} : x ∈ ns → Occurs n x →
      Occurs n (.Sequence ns)
  | parallelMem {n x : PlanNode} {ns : List PlanNode} : x ∈ ns → Occurs n x →
      Occurs n (.Parallel ns)
  | flattenChild {n : PlanNode} {p : Path} {m : PlanNode} : Occurs n m →
      Occurs n (.Flatten p m)
  | deferPrimary {n : PlanNode} {ss : Option String} {m : PlanNode}
      {dfs : List DeferredNode} : Occurs n m →
      Occurs n (.Defer (.mk ss (some m)) dfs)
  | deferDeferred {n : PlanNode} {pr : Primary} {dfs : List DeferredNode}
      {d : DeferredNode} {m : PlanNode} : d ∈ dfs → d.node = some m →
      Occurs n m → Occurs n (.Defer pr dfs)
  | subscriptionRest {n : PlanNode} {s : SubscriptionNode} {m : PlanNode} :
      Occurs n m → Occurs n (.Subscription s (some m))
  | conditionIf {n : PlanNode} {c : String} {m : PlanNode} {e : Option PlanNode} :
      Occurs n m → Occurs n (.Condition c (some m) e)
  | conditionElse {n : PlanNode} {c : String} {i : Option PlanNode} {m : PlanNode} :
      Occurs n m → Occurs n (.Condition c i (some m))

theorem validateDependsList_mem {ns : List PlanNode}
    (h : validateDependsList ns = true) : ∀ x ∈ ns, validateDepends x = true := by
  induction ns with
  | nil => intro x hx; cases hx
  | cons n ns ih =>
    simp only [validateDependsList, Bool.and_eq_true] at h
    intro x hx
    rcases List.mem_cons.mp hx with rfl | hx2
    · exact h.1
    · exact ih h.2 x hx2

theorem validateDependsDeferredList_mem {ds : List DeferredNode}
    (h : validateDependsDeferredList ds = true) :
    ∀ d ∈ ds, validateDependsOpt d.node = true := by
  induction ds with
  | nil => intro d hd; cases hd
  | cons d ds ih =>
    cases d with
    | mk dep lb qp ss nd =>
      simp only [validateDependsDeferredList, Bool.and_eq_true] at h
      intro x hx
      rcases List.mem_cons.mp hx with rfl | hx2
      · exact h.1
      · exact ih h.2 x hx2

theorem dependsOkAll_count {ids : List String} {dfs : List DeferredNode}
    (h : dependsOkAll ids dfs = true) :
    ∀ d ∈ dfs, ∀ dep ∈ d.depends, ids.count dep.id = 1 := by
  simp only [dependsOkAll, List.all_eq_true] at h
  intro d hd dep hdep
  have := h d hd
  simp only [List.all_eq_true] at this
  have h2 := this dep hdep
  simpa using h2

/-- A depends-validated plan satisfies, at every Defer it contains, the
exactly-one-reachable-fetch property. -/
theorem validateDepends_occurs {p : PlanNode} (hv : validateDepends p = true)
    {pr : Primary} {dfs : List DeferredNode}
    (ho : Occurs (.Defer pr dfs) p) :
    ∀ d ∈ dfs, ∀ dep ∈ d.depends, (fetchIdsOpt pr.node).count dep.id = 1 := by
  induction ho with
  | refl =>
    cases pr with
    | mk ss nd =>
      simp only [validateDepends, Bool.and_eq_true] at hv
      exact dependsOkAll_count hv.1
  | sequenceMem hx hox ih =>
    simp only [validateDepends] at hv
    exact ih (validateDependsList_mem hv _ hx)
  | parallelMem hx hox ih =>
    simp only [validateDepends] at hv
    exact ih (validateDependsList_mem hv _ hx)
  | flattenChild hom ih =>
    simp only [validateDepends] at hv
    exact ih hv
  | deferPrimary hom ih =>
    simp only [validateDepends, Bool.and_eq_true, validateDependsOpt] at hv
    exact ih hv.2.1
  | deferDeferred hd hnode hom ih =>
    rename_i pr' dfs' d m
    cases pr' with
    | mk ss' nd' =>
      simp only [validateDepends, Bool.and_eq_true] at hv
      have := validateDependsDeferredList_mem hv.2.2 d hd
      rw [hnode] at this
      simp only [validateDependsOpt] at this
      exact ih this
  | subscriptionRest hom ih =>
    simp only [validateDepends, validateDependsOpt] at hv
    exact ih hv
  | conditionIf hom ih =>
    simp only [validateDepends, Bool.and_eq_true, validateDependsOpt] at hv
    exact ih hv.1
  | conditionElse hom ih =>
    simp only [validateDepends, Bool.and_eq_true, validateDependsOpt] at hv
    exact ih hv.2

/-! ## Claim-side canonical path encoding (for the format characterization) -/

/-- The "|[A,B]" suffix listing the element's type conditions, emitted when a
nonempty set of conditions is present. -/
def conditionsSuffix : Option TypeConditions → List Char
  | some (c :: cs) => '|' :: '[' :: (joinComma ((c :: cs).map String.data) ++ [']'])
  | _ => []

/-- Per-element canonical rendering as the spec words it: Index as decimal,
Key as its name, Flatten as "@", Fragment as "... on Type", each with the
conditions suffix where applicable. -/
def canonicalElementEncoding : PathElement → List Char
  | .Index index => natToDecimal index
  | .Key key tc => key.data ++ conditionsSuffix tc
  | .Flatten tc => '@' :: conditionsSuffix tc
  | .Fragment name => fragmentMarker ++ name.data

/-- The canonical path encoding as the spec words it: each element preceded
by "/"; the empty path encodes to the empty string. -/
def canonicalPathEncoding (p : Path) : String :=
  String.mk ((p.map (fun e => '/' :: canonicalElementEncoding e)).flatten)

theorem fmtTypeConditions_eq_suffix :
    ∀ tc : Option TypeConditions, fmtTypeConditions tc = conditionsSuffix tc
  | none => rfl
  | some [] => rfl
  | some (c :: cs) => by simp [fmtTypeConditions, conditionsSuffix]

theorem fmtPathElement_eq_canonical (e : PathElement) :
    fmtPathElement e = canonicalElementEncoding e := by
  cases e <;> simp [fmtPathElement, canonicalElementEncoding,
    fmtTypeConditions_eq_suffix]

/-! ## Whitespace stripping (for the operation-equality claim) -/

/-- Remove ASCII whitespace; two texts that differ only in incidental
formatting have the same stripped form. -/
def stripWhitespace (s : String) : String :=
  String.mk (s.data.filter
    (fun c => !(c == ' ' || c == '\t' || c == '\n' || c == '\r')))

/-! ## Fetch normalization congruence (for the variable-usages claim) -/

theorem normalizeFetch_usages_congr (opn : String → String) (f : FetchNode)
    (v₁ v₂ : List String) (h : ∀ s, s ∈ v₁ ↔ s ∈ v₂) :
    normalizeFetch opn { f with variable_usages := v₁ } =
      normalizeFetch opn { f with variable_usages := v₂ } := by
  simp only [normalizeFetch]
  rw [sortedDedup_eq_of_mem_iff h]

/-! ## Nonemptiness of the debug rendering -/

theorem debugPlanNode_ne_empty (n : PlanNode) : debugPlanNode n ≠ "" := by
  cases n <;>
    · intro h
      have h2 := congrArg String.data h
      simp only [debugPlanNode] at h2
      rw [String.data_append] at h2
      simp at h2

/-! ## Claim theorems -/

/-- C1 (counterexample): two SubgraphOperation values whose texts differ only
in whitespace (same whitespace-stripped form) compare UNEQUAL — equality is
not parsed/normalized comparison. -/
theorem c1_counterexample :
    stripWhitespace (SubgraphOperation.from_string "query { a }").serialized =
      stripWhitespace (SubgraphOperation.from_string "query {a}").serialized ∧
    (SubgraphOperation.from_string "query { a }").serialized ≠
      (SubgraphOperation.from_string "query {a}").serialized ∧
    SubgraphOperation.eq (SubgraphOperation.from_string "query { a }")
      (SubgraphOperation.from_string "query {a}") = false := by
  refine ⟨by decide, by decide, by decide⟩

/-- C1 (amended): equality on SubgraphOperation holds iff the serialized
texts are byte-for-byte identical (plan.rs lines 232-236). -/
theorem c1_subgraph_operation_eq (a b : SubgraphOperation) :
    SubgraphOperation.eq a b = true ↔ a.as_serialized = b.as_serialized := by
  simp [SubgraphOperation.eq]

/-- C2 (counterexample): the canonical rendering collapses an empty
type-condition set to no suffix, so the round-trip maps Key "a" (Some [])
to Key "a" None — empty set and absent set are NOT distinguished. -/
theorem c2_counterexample :
    Path.parse (Path.fmt [PathElement.Key "a" (some [])]) =
      some [PathElement.Key "a" none] ∧
    ([PathElement.Key "a" none] : Path) ≠ [PathElement.Key "a" (some [])] := by
  refine ⟨by decide, by decide⟩

/-- C2 (amended): for every valid path — GraphQL names everywhere and no
element carrying an empty (as opposed to absent) condition set — parsing the
canonical rendering yields the path back. -/
theorem c2_parse_fmt_roundtrip (p : Path) (h : validPath p = true) :
    Path.parse (Path.fmt p) = some p :=
  parse_fmt h

/-- C2 (witness): the round-trip on a concrete valid path with every element
kind. -/
theorem c2_witness :
    validPath [PathElement.Key "a" (some ["A", "B"]), PathElement.Index 3,
      PathElement.Flatten (some ["X"]), PathElement.Fragment "T"] = true ∧
    Path.parse (Path.fmt [PathElement.Key "a" (some ["A", "B"]), PathElement.Index 3,
      PathElement.Flatten (some ["X"]), PathElement.Fragment "T"]) =
      some [PathElement.Key "a" (some ["A", "B"]), PathElement.Index 3,
        PathElement.Flatten (some ["X"]), PathElement.Fragment "T"] :=
  ⟨by decide, c2_parse_fmt_roundtrip _ (by decide)⟩

/-- C3: reordering the children of any Parallel node in a plan tree yields a
tree that plan_matches the original, for every stable operation printer. -/
theorem c3_parallel_reorder_matches (opn : String → String) (t t' : PlanNode)
    (h : Reorder t t') : plan_matches opn t t' = true := by
  unfold plan_matches
  rw [reorder_normalize_eq opn h, compare_refl]
  rfl

/-- C3 (witness): two concrete fetches in a Parallel node, swapped. -/
theorem c3_witness :
    Reorder
      (.Parallel [.Fetch ⟨"accounts", [], ["id"], ⟨"query{a}"⟩, none, .Query, none, none, none, none⟩,
        .Fetch ⟨"products", [], ["id"], ⟨"query{p}"⟩, none, .Query, none, none, none, none⟩])
      (.Parallel [.Fetch ⟨"products", [], ["id"], ⟨"query{p}"⟩, none, .Query, none, none, none, none⟩,
        .Fetch ⟨"accounts", [], ["id"], ⟨"query{a}"⟩, none, .Query, none, none, none, none⟩]) ∧
    plan_matches id
      (.Parallel [.Fetch ⟨"accounts", [], ["id"], ⟨"query{a}"⟩, none, .Query, none, none, none, none⟩,
        .Fetch ⟨"products", [], ["id"], ⟨"query{p}"⟩, none, .Query, none, none, none, none⟩])
      (.Parallel [.Fetch ⟨"products", [], ["id"], ⟨"query{p}"⟩, none, .Query, none, none, none, none⟩,
        .Fetch ⟨"accounts", [], ["id"], ⟨"query{a}"⟩, none, .Query, none, none, none, none⟩]) = true :=
  have hre : Reorder
      (.Parallel [.Fetch ⟨"accounts", [], ["id"], ⟨"query{a}"⟩, none, .Query, none, none, none, none⟩,
        .Fetch ⟨"products", [], ["id"], ⟨"query{p}"⟩, none, .Query, none, none, none, none⟩])
      (.Parallel [.Fetch ⟨"products", [], ["id"], ⟨"query{p}"⟩, none, .Query, none, none, none, none⟩,
        .Fetch ⟨"accounts", [], ["id"], ⟨"query{a}"⟩, none, .Query, none, none, none, none⟩]) :=
    Reorder.perm (List.Perm.swap _ _ [])
  ⟨hre, c3_parallel_reorder_matches id _ _ hre⟩

/-- C4 (counterexample): a malformed type-condition suffix parses without
error, silently producing a Key element. -/
theorem c4_counterexample :
    Path.parse "/@|[" = some [PathElement.Key "@|[" none] := by decide

/-- C4 (amended): the Flatten and Fragment visitors do reject strings that
misuse the markers, but element parsing falls through to the catch-all Key
visitor, so no parse error is ever surfaced for such strings. -/
theorem c4_key_fallback (s : List Char) (h1 : flattenVisit s = none)
    (h2 : fragmentVisit s = none) (h3 : digitsOnly s = false) :
    parseElement s = PathElement.Key (keyVisit s).1 (keyVisit s).2 := by
  simp only [parseElement, h1, h2, h3, Bool.false_eq_true, if_false]

/-- C4 (witness): the malformed flatten marker with unclosed suffix. -/
theorem c4_witness :
    flattenVisit ('@' :: '|' :: '[' :: []) = none ∧
    fragmentVisit ('@' :: '|' :: '[' :: []) = none ∧
    digitsOnly ('@' :: '|' :: '[' :: []) = false ∧
    parseElement ('@' :: '|' :: '[' :: []) =
      PathElement.Key (keyVisit ('@' :: '|' :: '[' :: [])).1
        (keyVisit ('@' :: '|' :: '[' :: [])).2 :=
  ⟨by decide, by decide, by decide,
    c4_key_fallback _ (by decide) (by decide) (by decide)⟩

/-- C5: two fetch nodes identical except for order or duplication in their
variable_usages lists produce no divergence — the comparison treats
variable_usages as a set. -/
theorem c5_variable_usages_set (opn : String → String) (f : FetchNode)
    (v₁ v₂ : List String) (h : ∀ s, s ∈ v₁ ↔ s ∈ v₂) :
    plan_matches opn (.Fetch { f with variable_usages := v₁ })
      (.Fetch { f with variable_usages := v₂ }) = true := by
  unfold plan_matches
  simp only [normalizePlanNode]
  rw [normalizeFetch_usages_congr opn f v₁ v₂ h, compare_refl]
  rfl

/-- C5 (witness): same names, different order and duplication. -/
theorem c5_witness :
    plan_matches id
      (.Fetch ⟨"accounts", [], ["b", "a", "a"], ⟨"query{a}"⟩, none, .Query, none, none, none, none⟩)
      (.Fetch ⟨"accounts", [], ["a", "b"], ⟨"query{a}"⟩, none, .Query, none, none, none, none⟩) = true :=
  c5_variable_usages_set id
    ⟨"accounts", [], [], ⟨"query{a}"⟩, none, .Query, none, none, none, none⟩
    ["b", "a", "a"] ["a", "b"] (by intro s; simp; tauto)

/-- C6: a depends-validated plan has, at every Defer node it contains, each
depends id matching exactly one fetch id reachable from that Defer's
primary; and a plan failing validation aborts the pipeline with
AdaptationFailure before any comparison. -/
theorem c6_depends_validation (opn : String → String) (a b : PlanNode) :
    (validateDepends a = true → ∀ pr dfs, Occurs (.Defer pr dfs) a →
      ∀ d ∈ dfs, ∀ dep ∈ d.depends,
        (fetchIdsOpt (Primary.node pr)).count dep.id = 1) ∧
    (validateDepends b = false →
      comparePlansChecked opn a b = .error .adaptationFailure) := by
  constructor
  · intro hv pr dfs ho
    exact validateDepends_occurs hv ho
  · intro hb
    by_cases ha : validateDepends a <;> simp [comparePlansChecked, ha, hb]

/-- C6 (witness): a Defer whose deferred part depends on the primary fetch
id "1" validates and satisfies the count property; the same Defer with a
dangling depends id "2" makes the pipeline abort. -/
theorem c6_witness :
    (fetchIdsOpt (Primary.node (Primary.mk none
      (some (.Fetch ⟨"accounts", [], [], ⟨"q"⟩, none, .Query, some "1", none, none, none⟩))))).count "1" = 1 ∧
    comparePlansChecked id
      (.Defer (Primary.mk none
        (some (.Fetch ⟨"accounts", [], [], ⟨"q"⟩, none, .Query, some "1", none, none, none⟩)))
        [DeferredNode.mk [⟨"1"⟩] none [] none none])
      (.Defer (Primary.mk none
        (some (.Fetch ⟨"accounts", [], [], ⟨"q"⟩, none, .Query, some "1", none, none, none⟩)))
        [DeferredNode.mk [⟨"2"⟩] none [] none none]) = .error .adaptationFailure :=
  ⟨(c6_depends_validation id
      (.Defer (Primary.mk none
        (some (.Fetch ⟨"accounts", [], [], ⟨"q"⟩, none, .Query, some "1", none, none, none⟩)))
        [DeferredNode.mk [⟨"1"⟩] none [] none none])
      (.Defer (Primary.mk none
        (some (.Fetch ⟨"accounts", [], [], ⟨"q"⟩, none, .Query, some "1", none, none, none⟩)))
        [DeferredNode.mk [⟨"2"⟩] none [] none none])).1 (by decide)
      (Primary.mk none
        (some (.Fetch ⟨"accounts", [], [], ⟨"q"⟩, none, .Query, some "1", none, none, none⟩)))
      [DeferredNode.mk [⟨"1"⟩] none [] none none] (Occurs.refl _)
      (DeferredNode.mk [⟨"1"⟩] none [] none none) (by decide) ⟨"1"⟩ (by decide),
    (c6_depends_validation id
      (.Defer (Primary.mk none
        (some (.Fetch ⟨"accounts", [], [], ⟨"q"⟩, none, .Query, some "1", none, none, none⟩)))
        [DeferredNode.mk [⟨"1"⟩] none [] none none])
      (.Defer (Primary.mk none
        (some (.Fetch ⟨"accounts", [], [], ⟨"q"⟩, none, .Query, some "1", none, none, none⟩)))
        [DeferredNode.mk [⟨"2"⟩] none [] none none])).2 (by decide)⟩

/-- C7: Path.fmt emits exactly the canonical encoding — each element preceded
by "/", Index in decimal, Key as its name, Flatten as "@", Fragment as
"... on Type", with a |[A,B] suffix listing the element's type conditions
when a nonempty set of them is present — and the empty path formats to the
empty string. -/
theorem c7_format_canonical :
    (∀ p : Path, Path.fmt p = canonicalPathEncoding p) ∧
      Path.fmt ([] : Path) = "" := by
  have hchars : ∀ p : Path, formatPathChars p =
      (p.map (fun e => '/' :: canonicalElementEncoding e)).flatten := by
    intro p
    induction p with
    | nil => rfl
    | cons e es ih =>
      simp only [formatPathChars, List.map_cons, List.flatten_cons, ih,
        fmtPathElement_eq_canonical, List.cons_append]
  constructor
  · intro p
    show String.mk (formatPathChars p) = _
    rw [hchars p]
    rfl
  · rfl

/-- C8: response_name returns the alias when the field has one, and the
field's name otherwise. -/
theorem c8_response_name (f : Field) (a : String) :
    (f.alias' = some a → f.response_name = a) ∧
      (f.alias' = none → f.response_name = f.name) := by
  cases f with
  | mk al nm sels =>
    constructor
    · intro h
      simp only [Field.alias'] at h
      simp [Field.response_name, Field.alias', h]
    · intro h
      simp only [Field.alias'] at h
      simp [Field.response_name, Field.alias', Field.name, h]

/-- C8 (witness): a field with an alias and a field without one. -/
theorem c8_witness :
    (Field.mk (some "x") "n" none).response_name = "x" ∧
      (Field.mk none "n" none).response_name = "n" :=
  ⟨(c8_response_name (Field.mk (some "x") "n" none) "x").1 rfl,
    (c8_response_name (Field.mk none "n" none) "x").2 rfl⟩

/-- C9: the conversions between OperationKind and ast::OperationType are
mutually inverse. -/
theorem c9_operation_kind_roundtrip :
    (∀ k : OperationKind, operationKindFromType (operationTypeFromKind k) = k) ∧
      (∀ t : AstOperationType, operationTypeFromKind (operationKindFromType t) = t) := by
  constructor <;> intro x <;> cases x <;> rfl

/-- C10: render_legacy_plan returns the empty string exactly when the root
node is None, and otherwise the pretty-printed rendering of the root node. -/
theorem c10_render_legacy_plan (qp : QueryPlanResult) :
    (render_legacy_plan qp = "" ↔ qp.query_plan.node = none) ∧
      (∀ n, qp.query_plan.node = some n → render_legacy_plan qp = debugPlanNode n) := by
  obtain ⟨fqp, ⟨node⟩⟩ := qp
  cases node with
  | none =>
    refine ⟨⟨fun _ => rfl, fun _ => rfl⟩, ?_⟩
    intro n h
    cases h
  | some m =>
    constructor
    · constructor
      · intro h
        exact absurd h (debugPlanNode_ne_empty m)
      · intro h
        cases h
    · intro n h
      obtain rfl : n = m := by injection h with hh; exact hh.symm
      rfl

/-- C10 (witness): an empty plan renders to the empty string; a plan with a
root renders its root. -/
theorem c10_witness :
    render_legacy_plan ⟨none, ⟨none⟩⟩ = "" ∧
      render_legacy_plan ⟨none, ⟨some (.Sequence [])⟩⟩ =
        debugPlanNode (.Sequence []) :=
  ⟨(c10_render_legacy_plan ⟨none, ⟨none⟩⟩).1.mpr rfl,
    (c10_render_legacy_plan ⟨none, ⟨some (.Sequence [])⟩⟩).2 _ rfl⟩

end QpCompare

